import Mathlib

/-!
# Verification of the `drink970082/orderbook` limit order book engine

This file gives a shallow embedding of the order book implementation in
`src/Orderbook.cpp` (together with `src/Order.h`, `src/Constants.h`) and proves
or refutes the frozen claims C1..C10 about it.

Modelling conventions:

* `Quantity` is `std::uint32_t` (spec section 6); arithmetic on aggregate
  quantities and on level-data counters is performed modulo `2^32`
  (`uadd`/`usub` below).  `Order::Fill` never wraps because every call site
  passes `q = min(remaining, remaining)`, which satisfies the guard in
  `Order::Fill`, so plain truncated subtraction coincides with it.
* `Price` is `std::int32_t` (spec section 6), modelled as `Int`; only
  comparisons are performed on prices, so the 32-bit range is irrelevant.
* `Constants::InitialPrice` is `std::numeric_limits<Price>::quiet_NaN()` with
  `Price = std::int32_t`; for a non-floating-point type `quiet_NaN()` is
  specified to return `Price()`, i.e. `0`.  Hence the sentinel price is `0`.
* `std::map<Price, OrderPointers, std::greater<>>` (bids) is modelled as an
  association list sorted by descending price, `std::map` with `std::less<>`
  (asks, and the level-data map `data_`) as association lists sorted by
  ascending price.  `begin()` is the head of the list.
* `orders_` (`std::unordered_map<OrderId, OrderEntry>`) stores shared
  pointers to the same `Order` objects that sit in the side books, so a
  lookup through `orders_` observes the current state of the resting order.
  We model the id index as the list of resting order ids and resolve the
  order itself by searching the side books; erasing through the stored list
  iterator is modelled as erasing the first order with that id from its
  level, which is the same element whenever ids are unique (order ids are
  unique in every state the engine itself constructs).
* The single book-wide `std::mutex` and the good-for-day pruner thread are
  concurrency artefacts with no effect on the sequential semantics of one
  public call; re-entrant `CancelOrder` calls from inside `MatchOrders` are
  modelled as direct calls to `CancelOrderInternal`.
* The source's `while (true)` matching loop is modelled with explicit fuel
  `totalOrders b + 1`; every iteration of the outer loop that does not break
  removes at least one resting order (proved below for books without empty
  levels), so this fuel never runs out on states the engine constructs.
* The `OrderType` enumeration and the `LevelData` structure live in headers
  that are not part of `src/`.  Modelled from the spec: `order_type` ranges
  over `{GoodTillCancel, GoodForDay, FillAndKill, FillOrKill, Market}`
  (spec section 3) and the level data entry holds `(aggregate_quantity,
  active_order_count)`, both unsigned 32-bit quantities (spec sections 3, 6);
  their use is fully determined by `Orderbook::UpdateLevelData` in
  `src/Orderbook.cpp`.
-/

namespace OB

/-- 2^32, the modulus of `std::uint32_t` (`Quantity`). -/
def U32 : Nat := 4294967296

/-- `uint32` addition (wrap-around), as performed on `Quantity` values. -/
def uadd (a b : Nat) : Nat := (a + b) % U32

/-- `uint32` subtraction (wrap-around). -/
def usub (a b : Nat) : Nat := (a + (U32 - b % U32)) % U32

/-- Side of an order (`Side.h`, used throughout `src/`). -/
inductive Side where
  | Buy
  | Sell
deriving DecidableEq, Repr

/-- Modelled from the spec: order types (spec section 3); the header
`OrderType.h` is not under `src/`, but `src/Orderbook.cpp` uses
`GoodForDay`, `FillAndKill`, `FillOrKill` and `src/Order.h` uses `Market`. -/
inductive OrderType where
  | GoodTillCancel
  | GoodForDay
  | FillAndKill
  | FillOrKill
  | Market
deriving DecidableEq, Repr

/-- `class Order` of `src/Order.h`: immutable identity plus the mutable
`remainingQuantity_`. -/
structure Order where
  orderType : OrderType
  orderId : Nat
  side : Side
  price : Int
  initialQuantity : Nat
  remainingQuantity : Nat
deriving DecidableEq, Repr

/-- The five-argument `Order` constructor: `remainingQuantity_` starts at
`quantity`. -/
def mkOrder (t : OrderType) (id : Nat) (s : Side) (p : Int) (q : Nat) : Order :=
  ⟨t, id, s, p, q, q⟩

/-- `Constants::InitialPrice` (`src/Constants.h`):
`std::numeric_limits<int32_t>::quiet_NaN()`, which is `int32_t()`, i.e. `0`. -/
def InitialPrice : Int := 0

/-- The three-argument market-order constructor of `src/Order.h`. -/
def mkMarketOrder (id : Nat) (s : Side) (q : Nat) : Order :=
  mkOrder OrderType.Market id s InitialPrice q

/-- `Order::Fill`.  The guard (`quantity > remaining` throws) is satisfied at
every call site (`q = min` of two remaining quantities), so truncated
subtraction agrees with the source. -/
def Order.fill (o : Order) (q : Nat) : Order :=
  { o with remainingQuantity := o.remainingQuantity - q }

/-- `Order::IsFilled`. -/
def Order.isFilled (o : Order) : Bool := o.remainingQuantity == 0

/-- `struct TradeInfo` (one leg of a trade). -/
structure TradeInfo where
  orderId : Nat
  price : Int
  quantity : Nat
deriving DecidableEq, Repr

/-- `class Trade`: a bid leg and an ask leg. -/
structure Trade where
  bidTrade : TradeInfo
  askTrade : TradeInfo
deriving DecidableEq, Repr

/-- `class OrderModify`: the payload of a modify request. -/
structure OrderModify where
  orderId : Nat
  side : Side
  price : Int
  quantity : Nat
deriving DecidableEq, Repr

/-- Modelled from the spec: the `LevelData` entry of the level data index
(spec section 3: price maps to `(aggregate_quantity, active_order_count)`),
manipulated exclusively through `Orderbook::UpdateLevelData`
(`src/Orderbook.cpp`).  Both fields are unsigned 32-bit (spec section 6). -/
structure LevelData where
  quantity : Nat
  count : Nat
deriving DecidableEq, Repr

/-- `LevelData::Action` as dispatched by `UpdateLevelData`. -/
inductive LDAction where
  | Add
  | Remove
  | Match
deriving DecidableEq, Repr

/-! ## Association-list models of the three `std::map`s -/

/-- Find the FIFO queue at price `p` in a side book. -/
def levelsFind (p : Int) : List (Int × List Order) → Option (List Order)
  | [] => none
  | (q, fifo) :: rest => if p = q then some fifo else levelsFind p rest

/-- `bids_[price].push_back(order)`: sorted-descending map access-or-insert
followed by appending at the FIFO tail. -/
def bidsAdd (p : Int) (o : Order) : List (Int × List Order) → List (Int × List Order)
  | [] => [(p, [o])]
  | (q, fifo) :: rest =>
    if q < p then (p, [o]) :: (q, fifo) :: rest
    else if p = q then (q, fifo ++ [o]) :: rest
    else (q, fifo) :: bidsAdd p o rest

/-- `asks_[price].push_back(order)`: sorted-ascending map access-or-insert
followed by appending at the FIFO tail. -/
def asksAdd (p : Int) (o : Order) : List (Int × List Order) → List (Int × List Order)
  | [] => [(p, [o])]
  | (q, fifo) :: rest =>
    if p < q then (p, [o]) :: (q, fifo) :: rest
    else if p = q then (q, fifo ++ [o]) :: rest
    else (q, fifo) :: asksAdd p o rest

/-- Erase the first order with the given id from a FIFO queue
(`orders.erase(iterator)`; the iterator denotes the unique element with that
id). -/
def fifoErase (id : Nat) : List Order → List Order
  | [] => []
  | o :: rest => if o.orderId = id then rest else o :: fifoErase id rest

/-- Erase an order from the level at price `p`, deleting the level if its
queue becomes empty (`CancelOrderInternal`). -/
def levelsEraseOrder (p : Int) (id : Nat) : List (Int × List Order) → List (Int × List Order)
  | [] => []
  | (q, fifo) :: rest =>
    if p = q then
      let fifo2 := fifoErase id fifo
      if fifo2.isEmpty then rest else (q, fifo2) :: rest
    else (q, fifo) :: levelsEraseOrder p id rest

/-- Find an order by id inside one FIFO queue. -/
def fifoFind (id : Nat) : List Order → Option Order
  | [] => none
  | o :: rest => if o.orderId = id then some o else fifoFind id rest

/-- Find an order by id across the levels of one side book. -/
def levelsFindOrder (id : Nat) : List (Int × List Order) → Option Order
  | [] => none
  | (_, fifo) :: rest =>
    match fifoFind id fifo with
    | some o => some o
    | none => levelsFindOrder id rest

/-- `data_.find(price)` on the level data map. -/
def dataFind (p : Int) : List (Int × LevelData) → Option LevelData
  | [] => none
  | (q, d) :: rest => if p = q then some d else dataFind p rest

/-- `data_.erase(price)` (no-op when the key is absent). -/
def dataErase (p : Int) : List (Int × LevelData) → List (Int × LevelData)
  | [] => []
  | (q, d) :: rest => if p = q then rest else (q, d) :: dataErase p rest

/-- Store an entry in the sorted-ascending level data map
(`data_[price] = d`). -/
def dataSet (p : Int) (d : LevelData) : List (Int × LevelData) → List (Int × LevelData)
  | [] => [(p, d)]
  | (q, e) :: rest =>
    if p < q then (p, d) :: (q, e) :: rest
    else if p = q then (p, d) :: rest
    else (q, e) :: dataSet p d rest

/-! ## The book state -/

/-- The `Orderbook` state: `bids_` (descending), `asks_` (ascending), the id
index `orders_` (ids only, see the modelling conventions above) and the level
data map `data_` (ascending). -/
structure Book where
  bids : List (Int × List Order)
  asks : List (Int × List Order)
  orders : List Nat
  data : List (Int × LevelData)
deriving DecidableEq, Repr

def emptyBook : Book := ⟨[], [], [], []⟩

/-- All orders resting in either side book. -/
def Book.allOrders (b : Book) : List Order :=
  (b.bids.map Prod.snd).join ++ (b.asks.map Prod.snd).join

/-- Total number of resting orders, counted in the side books. -/
def totalOrders (b : Book) : Nat :=
  (b.bids.map fun pf => pf.2.length).sum + (b.asks.map fun pf => pf.2.length).sum

/-- `Orderbook::Size`: the size of the id index. -/
def Book.size (b : Book) : Nat := b.orders.length

/-- Resolve `orders_.at(id).order_` by searching the side books (the stored
shared pointer aliases the resting order). -/
def Book.lookupOrder (b : Book) (id : Nat) : Option Order :=
  match levelsFindOrder id b.bids with
  | some o => some o
  | none => levelsFindOrder id b.asks

/-! ## Orderbook member functions (from `src/Orderbook.cpp`) -/

/-- `Orderbook::CanMatch`. -/
def canMatch (b : Book) (s : Side) (p : Int) : Bool :=
  match s with
  | Side.Buy =>
    match b.asks with
    | [] => false
    | (bestAsk, _) :: _ => decide (bestAsk ≤ p)
  | Side.Sell =>
    match b.bids with
    | [] => false
    | (bestBid, _) :: _ => decide (p ≤ bestBid)

/-- `Orderbook::UpdateLevelData`: access-or-create `data_[price]`, adjust
count and quantity according to the action, erase the entry when the count
lands on zero. -/
def updateLevelData (p : Int) (qty : Nat) (a : LDAction) (data : List (Int × LevelData)) :
    List (Int × LevelData) :=
  let d0 := (dataFind p data).getD ⟨0, 0⟩
  let c1 := match a with
    | LDAction.Remove => usub d0.count 1
    | LDAction.Add => uadd d0.count 1
    | LDAction.Match => d0.count
  let q1 := match a with
    | LDAction.Add => uadd d0.quantity qty
    | _ => usub d0.quantity qty
  if c1 = 0 then dataErase p data else dataSet p ⟨q1, c1⟩ data

/-- The level-walking loop of `Orderbook::CanFullyFill`: iterate the level
data map in ascending price order, skip levels better than the opposing best
(`threshold`) or worse than the order's limit, and greedily consume
`levelData.quantity_`. -/
def canFullyFillLoop (s : Side) (p : Int) (threshold : Int) :
    Nat → List (Int × LevelData) → Bool
  | _, [] => false
  | qty, (levelPrice, levelData) :: rest =>
    if (s = Side.Buy ∧ levelPrice < threshold) ∨ (s = Side.Sell ∧ threshold < levelPrice) then
      canFullyFillLoop s p threshold qty rest
    else if (s = Side.Buy ∧ p < levelPrice) ∨ (s = Side.Sell ∧ levelPrice < p) then
      canFullyFillLoop s p threshold qty rest
    else if qty ≤ levelData.quantity then true
    else canFullyFillLoop s p threshold (qty - levelData.quantity) rest

/-- `Orderbook::CanFullyFill`.  The `threshold` optional always holds the
opposing best price here because `CanMatch` guarantees the opposing side is
non-empty (the `0` defaults are unreachable). -/
def canFullyFill (b : Book) (s : Side) (p : Int) (qty : Nat) : Bool :=
  if !(canMatch b s p) then false
  else
    let threshold : Int :=
      match s with
      | Side.Buy =>
        match b.asks with
        | [] => 0
        | (askPrice, _) :: _ => askPrice
      | Side.Sell =>
        match b.bids with
        | [] => 0
        | (bidPrice, _) :: _ => bidPrice
    canFullyFillLoop s p threshold qty b.data

/-- `Orderbook::CancelOrderInternal` followed by `OnOrderCancelled`:
erase from the id index, erase the element from its level (deleting the
level when it empties) and post a `Remove` action to the level data. -/
def cancelOrderInternal (id : Nat) (b : Book) : Book :=
  if !(b.orders.contains id) then b
  else
    match b.lookupOrder id with
    | none => { b with orders := b.orders.erase id }
    | some ord =>
      let b1 : Book := { b with orders := b.orders.erase id }
      let b2 : Book :=
        match ord.side with
        | Side.Sell => { b1 with asks := levelsEraseOrder ord.price id b1.asks }
        | Side.Buy => { b1 with bids := levelsEraseOrder ord.price id b1.bids }
      { b2 with data := updateLevelData ord.price ord.remainingQuantity LDAction.Remove b2.data }

/-- The state threaded through the inner crossing loop of
`Orderbook::MatchOrders`: the two best-level FIFO queues, the id index, the
level data and the trades emitted so far. -/
structure MatchState where
  bfifo : List Order
  afifo : List Order
  orders : List Nat
  data : List (Int × LevelData)
  trades : List Trade
deriving DecidableEq, Repr

/-- The inner `while (bids.size() && asks.size())` loop of
`Orderbook::MatchOrders`, with the exact operation order of the source:
fill both heads by `min` of the remaining quantities, pop filled heads and
erase them from the id index, erase the level price from `data_` when a
queue empties (the source erases the emptied level from the side map at the
same point; since the loop never reads the side maps, that erasure is
applied by the caller after the loop), record the trade, then post the two
`OnOrderMatched` actions to the level data. -/
def innerLoopF : Nat → Int → Int → MatchState → MatchState
  | 0, _, _, s => s
  | Nat.succ fuel, bp, ap, s =>
    match s with
    | ⟨[], _, _, _, _⟩ => s
    | ⟨_ :: _, [], _, _, _⟩ => s
    | ⟨bid :: brest, ask :: arest, orders0, data0, trades0⟩ =>
      let q := min bid.remainingQuantity ask.remainingQuantity
      let bid1 := bid.fill q
      let ask1 := ask.fill q
      let bfifo1 := if bid1.isFilled then brest else bid1 :: brest
      let orders1 := if bid1.isFilled then orders0.erase bid1.orderId else orders0
      let afifo1 := if ask1.isFilled then arest else ask1 :: arest
      let orders2 := if ask1.isFilled then orders1.erase ask1.orderId else orders1
      let data1 := if bfifo1.isEmpty then dataErase bp data0 else data0
      let data2 := if afifo1.isEmpty then dataErase ap data1 else data1
      let t : Trade := ⟨⟨bid1.orderId, bid1.price, q⟩, ⟨ask1.orderId, ask1.price, q⟩⟩
      let data3 := updateLevelData bid1.price q
        (if bid1.isFilled then LDAction.Remove else LDAction.Match) data2
      let data4 := updateLevelData ask1.price q
        (if ask1.isFilled then LDAction.Remove else LDAction.Match) data3
      innerLoopF fuel bp ap ⟨bfifo1, afifo1, orders2, data4, trades0 ++ [t]⟩

/-- The inner loop entry point: the fuel `|bids| + |asks|` is sufficient
because every iteration pops at least one order (the head with the minimal
remaining quantity is filled), so `innerLoopF` never hits its artificial
fuel-0 base case when called this way. -/
def innerLoop (bp ap : Int) (s : MatchState) : MatchState :=
  innerLoopF (s.bfifo.length + s.afifo.length) bp ap s

/-- The bid half of the top-of-book FillAndKill sweep at the end of each
outer iteration of `MatchOrders` (`CancelOrder` is re-entered there; the
lock aside, it is `CancelOrderInternal`).  Reading the front of an empty
queue would be undefined behaviour in the source; the engine never produces
empty levels, and we model that branch as a no-op. -/
def fakCancelBidTop (b : Book) : Book :=
  match b.bids with
  | [] => b
  | (_, fifo) :: _ =>
    match fifo with
    | [] => b
    | ord :: _ =>
      if ord.orderType = OrderType.FillAndKill then cancelOrderInternal ord.orderId b else b

/-- The ask half of the top-of-book FillAndKill sweep. -/
def fakCancelAskTop (b : Book) : Book :=
  match b.asks with
  | [] => b
  | (_, fifo) :: _ =>
    match fifo with
    | [] => b
    | ord :: _ =>
      if ord.orderType = OrderType.FillAndKill then cancelOrderInternal ord.orderId b else b

/-- The outer `while (true)` loop of `Orderbook::MatchOrders`, with explicit
fuel.  One iteration: break if a side is empty or the best prices do not
cross, otherwise run the inner loop on the two best levels, drop emptied
best levels from the side maps, then run the two FillAndKill top-of-book
sweeps. -/
def matchLoop : Nat → Book → List Trade → Book × List Trade
  | 0, b, acc => (b, acc)
  | Nat.succ fuel, b, acc =>
    match b.bids with
    | [] => (b, acc)
    | (bp, bfifo) :: brest =>
      match b.asks with
      | [] => (b, acc)
      | (ap, afifo) :: arest =>
        if bp < ap then (b, acc)
        else
          let s := innerLoop bp ap ⟨bfifo, afifo, b.orders, b.data, []⟩
          let bids1 := if s.bfifo.isEmpty then brest else (bp, s.bfifo) :: brest
          let asks1 := if s.afifo.isEmpty then arest else (ap, s.afifo) :: arest
          let b2 := fakCancelAskTop (fakCancelBidTop ⟨bids1, asks1, s.orders, s.data⟩)
          matchLoop fuel b2 (acc ++ s.trades)

/-- `Orderbook::MatchOrders`.  The fuel `totalOrders b + 1` is sufficient:
every outer iteration that does not break removes at least one resting
order (proved below for books without empty levels). -/
def matchOrders (b : Book) : Book × List Trade :=
  matchLoop (totalOrders b + 1) b []

/-- `Orderbook::AddOrder`: duplicate-id rejection, the FillAndKill and
FillOrKill admission gates, tail insertion into the side book, id index
registration, `OnOrderAdded`, then the crossing loop. -/
def addOrder (o : Order) (b : Book) : Book × List Trade :=
  if b.orders.contains o.orderId then (b, [])
  else if o.orderType = OrderType.FillAndKill ∧ !(canMatch b o.side o.price) then (b, [])
  else if o.orderType = OrderType.FillOrKill ∧
      !(canFullyFill b o.side o.price o.initialQuantity) then (b, [])
  else
    let b1 : Book :=
      match o.side with
      | Side.Buy => { b with bids := bidsAdd o.price o b.bids }
      | Side.Sell => { b with asks := asksAdd o.price o b.asks }
    let b2 : Book := { b1 with orders := o.orderId :: b1.orders }
    let b3 : Book := { b2 with data := updateLevelData o.price o.initialQuantity LDAction.Add b2.data }
    matchOrders b3

/-- `Orderbook::CancelOrder` (the public entry point; the lock aside it is
`CancelOrderInternal`). -/
def cancelOrder (id : Nat) (b : Book) : Book := cancelOrderInternal id b

/-- `Orderbook::ModifyOrder`: no-op on an unknown id, otherwise remember the
existing order's type, cancel, and re-admit the modify payload with that
type. -/
def modifyOrder (req : OrderModify) (b : Book) : Book × List Trade :=
  if !(b.orders.contains req.orderId) then (b, [])
  else
    match b.lookupOrder req.orderId with
    | none => (b, [])
    | some existing =>
      addOrder (mkOrder existing.orderType req.orderId req.side req.price req.quantity)
        (cancelOrder req.orderId b)

/-- The per-level aggregation of `Orderbook::GetOrderInfos` (`std::accumulate`
over the remaining quantities, on `Quantity`). -/
def fifoQty (fifo : List Order) : Nat :=
  fifo.foldl (fun acc o => uadd acc o.remainingQuantity) 0

/-- The snapshot quantity shown for price `p` on side `s` (0 when the level
is absent). -/
def levelQty (b : Book) (s : Side) (p : Int) : Nat :=
  match s with
  | Side.Buy => fifoQty ((levelsFind p b.bids).getD [])
  | Side.Sell => fifoQty ((levelsFind p b.asks).getD [])

/-! ## State predicates used as reachable-state invariants -/

/-- No level of either side book has an empty queue (spec section 3:
"no level is ever empty"). -/
def noEmptyLevels (b : Book) : Prop :=
  (∀ pf ∈ b.bids, pf.2 ≠ ([] : List Order)) ∧ (∀ pf ∈ b.asks, pf.2 ≠ ([] : List Order))

/-- The book is not crossed: best bid below best ask, or a side empty. -/
def notCrossed (b : Book) : Prop :=
  match b.bids, b.asks with
  | (bp, _) :: _, (ap, _) :: _ => bp < ap
  | _, _ => True

/-- No FillAndKill order rests in either side book. -/
def noRestingFaK (b : Book) : Prop :=
  ∀ o ∈ b.allOrders, o.orderType ≠ OrderType.FillAndKill

/-- Every resting order has positive remaining quantity. -/
def posRemaining (b : Book) : Prop :=
  ∀ o ∈ b.allOrders, 0 < o.remainingQuantity

/-- The id is used neither in the side books nor in the id index. -/
def freshId (b : Book) (id : Nat) : Prop :=
  (∀ o ∈ b.allOrders, o.orderId ≠ id) ∧ b.orders.contains id = false

/-- The side books are sorted: bids by strictly descending price, asks by
strictly ascending price. -/
def sortedBook (b : Book) : Prop :=
  b.bids.Pairwise (fun x y => y.1 < x.1) ∧ b.asks.Pairwise (fun x y => x.1 < y.1)

end OB

namespace OB

/-! ## Small helper lemmas about the matching loop and insertion -/

/-- With an empty ask book the crossing loop breaks immediately. -/
theorem matchLoop_asks_nil (fuel : Nat) (b : Book) (acc : List Trade) (h : b.asks = []) :
    matchLoop fuel b acc = (b, acc) := by
  cases fuel with
  | zero => rfl
  | succ n =>
    unfold matchLoop
    cases hb : b.bids with
    | nil => rfl
    | cons hd tl => rw [h]

/-- With an empty bid book the crossing loop breaks immediately. -/
theorem matchLoop_bids_nil (fuel : Nat) (b : Book) (acc : List Trade) (h : b.bids = []) :
    matchLoop fuel b acc = (b, acc) := by
  cases fuel with
  | zero => rfl
  | succ n => unfold matchLoop; rw [h]

/-- The inserted order is a member of the bid book after `bidsAdd`. -/
theorem mem_bidsAdd (p : Int) (o : Order) (l : List (Int × List Order)) :
    o ∈ ((bidsAdd p o l).map Prod.snd).join := by
  induction l with
  | nil => simp [bidsAdd]
  | cons hd tl ih =>
    obtain ⟨q, fifo⟩ := hd
    by_cases h1 : q < p
    · simp [bidsAdd, h1]
    · by_cases h2 : p = q
      · simp [bidsAdd, h1, h2]
      · simp only [bidsAdd, if_neg h1, if_neg h2, List.map_cons, List.join_cons, List.mem_append]
        right
        exact ih

/-- The inserted order is a member of the ask book after `asksAdd`. -/
theorem mem_asksAdd (p : Int) (o : Order) (l : List (Int × List Order)) :
    o ∈ ((asksAdd p o l).map Prod.snd).join := by
  induction l with
  | nil => simp [asksAdd]
  | cons hd tl ih =>
    obtain ⟨q, fifo⟩ := hd
    by_cases h1 : p < q
    · simp [asksAdd, h1]
    · by_cases h2 : p = q
      · simp [asksAdd, h1, h2]
      · simp only [asksAdd, if_neg h1, if_neg h2, List.map_cons, List.join_cons, List.mem_append]
        right
        exact ih

end OB

namespace OB

/-! ## C1 -/

/-- C1: the claimed invariant fails on the code.  After
`add(GTC, 1, Buy, 100, 5); add(GTC, 2, Sell, 100, 5); add(GTC, 3, Buy, 100, 7)`
price 100 is present in the bid book with exactly one resting order of
remaining quantity 7, yet the level data entry at 100 holds
`aggregate_quantity = 2^32 - 3` and `active_order_count = 2^32 - 1` instead
of 7 and 1: `MatchOrders` erases the depleted level from `data_` before the
`OnOrderMatched` updates run, so the updates re-create the entry and
wrap its unsigned fields below zero, and the ghost entry corrupts every
later add at that price. -/
theorem C1_level_data_desync :
    (((addOrder (mkOrder OrderType.GoodTillCancel 3 Side.Buy 100 7)
        (addOrder (mkOrder OrderType.GoodTillCancel 2 Side.Sell 100 5)
          (addOrder (mkOrder OrderType.GoodTillCancel 1 Side.Buy 100 5) emptyBook).1).1).1).bids =
      [(100, [mkOrder OrderType.GoodTillCancel 3 Side.Buy 100 7])]) ∧
    dataFind 100
      ((addOrder (mkOrder OrderType.GoodTillCancel 3 Side.Buy 100 7)
        (addOrder (mkOrder OrderType.GoodTillCancel 2 Side.Sell 100 5)
          (addOrder (mkOrder OrderType.GoodTillCancel 1 Side.Buy 100 5) emptyBook).1).1).1).data =
      some ⟨4294967293, 4294967295⟩ := by decide

/-! ## C4 -/

/-- C4: the admission check for FillOrKill does not decide feasibility
against the opposing depth.  After
`add(GTC, 1, Sell, 100, 5); add(GTC, 2, Buy, 100, 5); add(GTC, 3, Sell, 99, 3)`
the entire opposing (ask) book is one level at 99 with aggregate remaining
quantity 3, yet `add(FOK, 4, Buy, 101, 50)` is admitted (it trades and even
rests with remainder 47): `CanFullyFill` walks the corrupted level data and
counts a ghost entry at price 100 holding `2^32 - 10`. -/
theorem C4_fok_admitted_beyond_depth :
    ((addOrder (mkOrder OrderType.GoodTillCancel 3 Side.Sell 99 3)
        (addOrder (mkOrder OrderType.GoodTillCancel 2 Side.Buy 100 5)
          (addOrder (mkOrder OrderType.GoodTillCancel 1 Side.Sell 100 5) emptyBook).1).1).1).asks =
      [(99, [mkOrder OrderType.GoodTillCancel 3 Side.Sell 99 3])] ∧
    (addOrder (mkOrder OrderType.FillOrKill 4 Side.Buy 101 50)
        (addOrder (mkOrder OrderType.GoodTillCancel 3 Side.Sell 99 3)
          (addOrder (mkOrder OrderType.GoodTillCancel 2 Side.Buy 100 5)
            (addOrder (mkOrder OrderType.GoodTillCancel 1 Side.Sell 100 5) emptyBook).1).1).1).2 ≠
      [] ∧
    ((addOrder (mkOrder OrderType.FillOrKill 4 Side.Buy 101 50)
        (addOrder (mkOrder OrderType.GoodTillCancel 3 Side.Sell 99 3)
          (addOrder (mkOrder OrderType.GoodTillCancel 2 Side.Buy 100 5)
            (addOrder (mkOrder OrderType.GoodTillCancel 1 Side.Sell 100 5) emptyBook).1).1).1).1).orders.contains
      4 = true := by decide

/-! ## C7 -/

/-- C7: `cancel_order` does not restore the pre-add state after a
non-crossing `add_order`.  Starting from the book produced by
`add(GTC, 1, Sell, 100, 5); add(GTC, 2, Buy, 100, 8)` (bid 2 rests at 100
with remainder 3 and the level data at 100 is already a wrapped ghost
entry), adding `GTC, 3, Buy, 100, 7` produces no trades and rests, and the
subsequent `cancel_order(3)` restores the side books and the order index but
not the level data index: the `Add` update hits the ghost entry, wraps its
count to 0 and deletes it, and the cancelling `Remove` then rebuilds a
different ghost. -/
theorem C7_cancel_does_not_restore_level_data :
    ((addOrder (mkOrder OrderType.GoodTillCancel 3 Side.Buy 100 7)
        (addOrder (mkOrder OrderType.GoodTillCancel 2 Side.Buy 100 8)
          (addOrder (mkOrder OrderType.GoodTillCancel 1 Side.Sell 100 5) emptyBook).1).1).2 = []) ∧
    ((cancelOrder 3
        (addOrder (mkOrder OrderType.GoodTillCancel 3 Side.Buy 100 7)
          (addOrder (mkOrder OrderType.GoodTillCancel 2 Side.Buy 100 8)
            (addOrder (mkOrder OrderType.GoodTillCancel 1 Side.Sell 100 5) emptyBook).1).1).1).bids =
      ((addOrder (mkOrder OrderType.GoodTillCancel 2 Side.Buy 100 8)
          (addOrder (mkOrder OrderType.GoodTillCancel 1 Side.Sell 100 5) emptyBook).1).1).bids) ∧
    ((cancelOrder 3
        (addOrder (mkOrder OrderType.GoodTillCancel 3 Side.Buy 100 7)
          (addOrder (mkOrder OrderType.GoodTillCancel 2 Side.Buy 100 8)
            (addOrder (mkOrder OrderType.GoodTillCancel 1 Side.Sell 100 5) emptyBook).1).1).1).orders =
      ((addOrder (mkOrder OrderType.GoodTillCancel 2 Side.Buy 100 8)
          (addOrder (mkOrder OrderType.GoodTillCancel 1 Side.Sell 100 5) emptyBook).1).1).orders) ∧
    ((cancelOrder 3
        (addOrder (mkOrder OrderType.GoodTillCancel 3 Side.Buy 100 7)
          (addOrder (mkOrder OrderType.GoodTillCancel 2 Side.Buy 100 8)
            (addOrder (mkOrder OrderType.GoodTillCancel 1 Side.Sell 100 5) emptyBook).1).1).1).data ≠
      ((addOrder (mkOrder OrderType.GoodTillCancel 2 Side.Buy 100 8)
          (addOrder (mkOrder OrderType.GoodTillCancel 1 Side.Sell 100 5) emptyBook).1).1).data) := by
  decide

/-! ## C3 -/

/-- C3 counterexample: a Buy Market order added to the empty book (empty
opposing side) returns empty trades but IS inserted: the resulting book is
not the unchanged empty book; the order rests in the bid book at the
sentinel price 0 and `size` becomes 1.  `AddOrder` has no Market-specific
admission path at all. -/
theorem C3_counterexample :
    (addOrder (mkMarketOrder 1 Side.Buy 5) emptyBook).2 = [] ∧
    (addOrder (mkMarketOrder 1 Side.Buy 5) emptyBook).1 ≠ emptyBook ∧
    (addOrder (mkMarketOrder 1 Side.Buy 5) emptyBook).1.size = 1 ∧
    levelsFind 0 ((addOrder (mkMarketOrder 1 Side.Buy 5) emptyBook).1).bids =
      some [mkMarketOrder 1 Side.Buy 5] := by decide

/-- The opposing side book of side `s` is empty. -/
def oppositeEmpty (b : Book) (s : Side) : Prop :=
  match s with
  | Side.Buy => b.asks = []
  | Side.Sell => b.bids = []

/-- C3 (amended): for every Market order admitted while the opposing side
book is empty (and whose id is not already in use), `add_order` returns
empty trades but does insert the order: it is appended to its own side book
at the sentinel price 0, registered in the order index, and rests. -/
theorem C3_market_into_empty_side_rests (id : Nat) (s : Side) (qty : Nat) (b : Book)
    (hopp : oppositeEmpty b s) (hid : b.orders.contains id = false) :
    (addOrder (mkMarketOrder id s qty) b).2 = [] ∧
    (addOrder (mkMarketOrder id s qty) b).1.orders = id :: b.orders ∧
    mkMarketOrder id s qty ∈ (addOrder (mkMarketOrder id s qty) b).1.allOrders := by
  have ht : (mkMarketOrder id s qty).orderType = OrderType.Market := rfl
  have hi : (mkMarketOrder id s qty).orderId = id := rfl
  have hside : (mkMarketOrder id s qty).side = s := rfl
  cases s with
  | Buy =>
    unfold oppositeEmpty at hopp
    simp only [addOrder, hi, hid, Bool.false_eq_true, if_false, ht, hside]
    simp only [reduceCtorEq, false_and, if_false, if_neg, Bool.not_eq_true]
    unfold matchOrders
    rw [matchLoop_asks_nil]
    · refine ⟨rfl, rfl, ?_⟩
      simp only [Book.allOrders, List.mem_append]
      left
      exact mem_bidsAdd _ _ _
    · simpa using hopp
  | Sell =>
    unfold oppositeEmpty at hopp
    simp only [addOrder, hi, hid, Bool.false_eq_true, if_false, ht, hside]
    simp only [reduceCtorEq, false_and, if_false, if_neg, Bool.not_eq_true]
    unfold matchOrders
    rw [matchLoop_bids_nil]
    · refine ⟨rfl, rfl, ?_⟩
      simp only [Book.allOrders, List.mem_append]
      right
      exact mem_asksAdd _ _ _
    · simpa using hopp

/-- Witness for C3's amended theorem at a concrete input. -/
theorem C3_market_into_empty_side_rests_witness :
    oppositeEmpty emptyBook Side.Buy ∧
    (addOrder (mkMarketOrder 7 Side.Buy 4) emptyBook).2 = [] ∧
    (addOrder (mkMarketOrder 7 Side.Buy 4) emptyBook).1.orders = 7 :: emptyBook.orders ∧
    mkMarketOrder 7 Side.Buy 4 ∈ (addOrder (mkMarketOrder 7 Side.Buy 4) emptyBook).1.allOrders :=
  ⟨rfl, C3_market_into_empty_side_rests 7 Side.Buy 4 emptyBook rfl rfl⟩

/-! ## C6 -/

/-- C6 counterexample: with the book holding one resting ask
(`GTC, 9, Sell, 100, 5`) and `o = (GTC, 1, Buy, 100, 5)`, the first
`add_order(o)` fully crosses and removes `o`, so the second `add_order(o)`
is not recognised as a duplicate: it returns empty trades but inserts `o`
again, and the final book differs from the book after a single add. -/
theorem C6_counterexample :
    (addOrder (mkOrder OrderType.GoodTillCancel 1 Side.Buy 100 5)
        (addOrder (mkOrder OrderType.GoodTillCancel 1 Side.Buy 100 5)
          (addOrder (mkOrder OrderType.GoodTillCancel 9 Side.Sell 100 5) emptyBook).1).1).1 ≠
      (addOrder (mkOrder OrderType.GoodTillCancel 1 Side.Buy 100 5)
        (addOrder (mkOrder OrderType.GoodTillCancel 9 Side.Sell 100 5) emptyBook).1).1 := by
  decide

/-- C6 (amended): `add_order` of an order whose id is currently present in
the order index is a no-op returning empty trades; consequently
`add_order(o); add_order(o)` returns empty trades on the second call and
leaves the state produced by the first call unchanged whenever `o` is still
resting (its id still indexed) after the first call. -/
theorem C6_duplicate_add_noop (o : Order) (b : Book)
    (h : ((addOrder o b).1).orders.contains o.orderId = true) :
    addOrder o (addOrder o b).1 = ((addOrder o b).1, []) := by
  have key : ∀ b2 : Book, b2.orders.contains o.orderId = true → addOrder o b2 = (b2, []) := by
    intro b2 h2
    unfold addOrder
    rw [if_pos h2]
  exact key _ h

/-- Witness for C6's amended theorem at a concrete input. -/
theorem C6_duplicate_add_noop_witness :
    ((addOrder (mkOrder OrderType.GoodTillCancel 1 Side.Buy 100 5) emptyBook).1).orders.contains
      ((mkOrder OrderType.GoodTillCancel 1 Side.Buy 100 5).orderId) = true ∧
    addOrder (mkOrder OrderType.GoodTillCancel 1 Side.Buy 100 5)
        (addOrder (mkOrder OrderType.GoodTillCancel 1 Side.Buy 100 5) emptyBook).1 =
      ((addOrder (mkOrder OrderType.GoodTillCancel 1 Side.Buy 100 5) emptyBook).1, []) :=
  ⟨by decide, C6_duplicate_add_noop (mkOrder OrderType.GoodTillCancel 1 Side.Buy 100 5) emptyBook
    (by decide)⟩

end OB

namespace OB

/-- One unfolding step of the inner crossing loop. -/
theorem innerLoopF_cons (fuel : Nat) (bp ap : Int) (bid : Order) (brest : List Order)
    (ask : Order) (arest : List Order) (orders0 : List Nat) (data0 : List (Int × LevelData))
    (trades0 : List Trade) :
    innerLoopF (Nat.succ fuel) bp ap ⟨bid :: brest, ask :: arest, orders0, data0, trades0⟩ =
      (let q := min bid.remainingQuantity ask.remainingQuantity
       let bid1 := bid.fill q
       let ask1 := ask.fill q
       let bfifo1 := if bid1.isFilled then brest else bid1 :: brest
       let orders1 := if bid1.isFilled then orders0.erase bid1.orderId else orders0
       let afifo1 := if ask1.isFilled then arest else ask1 :: arest
       let orders2 := if ask1.isFilled then orders1.erase ask1.orderId else orders1
       let data1 := if bfifo1.isEmpty then dataErase bp data0 else data0
       let data2 := if afifo1.isEmpty then dataErase ap data1 else data1
       let t : Trade := ⟨⟨bid1.orderId, bid1.price, q⟩, ⟨ask1.orderId, ask1.price, q⟩⟩
       let data3 := updateLevelData bid1.price q
         (if bid1.isFilled then LDAction.Remove else LDAction.Match) data2
       let data4 := updateLevelData ask1.price q
         (if ask1.isFilled then LDAction.Remove else LDAction.Match) data3
       innerLoopF fuel bp ap ⟨bfifo1, afifo1, orders2, data4, trades0 ++ [t]⟩) := rfl

/-- The inner loop leaves a state with an empty bid queue unchanged. -/
theorem innerLoopF_bfifo_nil (fuel : Nat) (bp ap : Int) (s : MatchState) (h : s.bfifo = []) :
    innerLoopF fuel bp ap s = s := by
  cases fuel with
  | zero => rfl
  | succ n =>
    obtain ⟨bf, af, o0, d0, t0⟩ := s
    simp only at h
    subst h
    rfl

/-- The inner loop leaves a state with an empty ask queue unchanged. -/
theorem innerLoopF_afifo_nil (fuel : Nat) (bp ap : Int) (s : MatchState) (h : s.afifo = []) :
    innerLoopF fuel bp ap s = s := by
  cases fuel with
  | zero => rfl
  | succ n =>
    obtain ⟨bf, af, o0, d0, t0⟩ := s
    simp only at h
    subst h
    cases bf with
    | nil => rfl
    | cons x xs => rfl

/-- At every crossing step, at least one of the two filled heads is fully
filled (the one whose remaining quantity is the minimum). -/
theorem fill_min_filled (bid ask : Order) :
    (bid.fill (min bid.remainingQuantity ask.remainingQuantity)).isFilled = true ∨
    (ask.fill (min bid.remainingQuantity ask.remainingQuantity)).isFilled = true := by
  rcases Nat.le_total bid.remainingQuantity ask.remainingQuantity with h | h
  · exact Or.inl (by simp [Order.fill, Order.isFilled, min_eq_left h])
  · exact Or.inr (by simp [Order.fill, Order.isFilled, min_eq_right h])

/-- The inner loop never lengthens the two queues. -/
theorem innerLoopF_len_le (bp ap : Int) :
    ∀ (fuel : Nat) (s : MatchState),
      (innerLoopF fuel bp ap s).bfifo.length + (innerLoopF fuel bp ap s).afifo.length ≤
        s.bfifo.length + s.afifo.length := by
  intro fuel
  induction fuel with
  | zero => intro s; simp [innerLoopF]
  | succ n ih =>
    intro s
    obtain ⟨bf, af, o0, d0, t0⟩ := s
    cases bf with
    | nil => simp [innerLoopF_bfifo_nil]
    | cons bid brest =>
      cases af with
      | nil => simp [innerLoopF_afifo_nil]
      | cons ask arest =>
        rw [innerLoopF_cons]
        simp only []
        refine le_trans (ih _) ?_
        by_cases hb : (bid.fill (min bid.remainingQuantity ask.remainingQuantity)).isFilled = true <;>
          by_cases ha : (ask.fill (min bid.remainingQuantity ask.remainingQuantity)).isFilled = true <;>
          simp [hb, ha] <;> omega

/-- When entered with two non-empty queues, the inner loop strictly shrinks
their total length (so the outer loop makes progress). -/
theorem innerLoopF_len_lt (bp ap : Int) (fuel : Nat) (bid : Order) (brest : List Order)
    (ask : Order) (arest : List Order) (orders0 : List Nat) (data0 : List (Int × LevelData))
    (trades0 : List Trade) :
    (innerLoopF (Nat.succ fuel) bp ap ⟨bid :: brest, ask :: arest, orders0, data0, trades0⟩).bfifo.length +
      (innerLoopF (Nat.succ fuel) bp ap ⟨bid :: brest, ask :: arest, orders0, data0, trades0⟩).afifo.length <
      (bid :: brest).length + (ask :: arest).length := by
  rw [innerLoopF_cons]
  simp only []
  refine lt_of_le_of_lt (innerLoopF_len_le bp ap fuel _) ?_
  rcases fill_min_filled bid ask with h | h <;>
    by_cases hb : (bid.fill (min bid.remainingQuantity ask.remainingQuantity)).isFilled = true <;>
    by_cases ha : (ask.fill (min bid.remainingQuantity ask.remainingQuantity)).isFilled = true <;>
    simp_all <;> omega

/-- Any property of orders that is stable under fills holds of every order
left in the queues by the inner loop, provided it held of every order in
the incoming queues. -/
theorem innerLoopF_pred (bp ap : Int) (P : Order → Prop)
    (hP : ∀ (o : Order) (q : Nat), P o → P (o.fill q)) :
    ∀ (fuel : Nat) (s : MatchState),
      (∀ x ∈ s.bfifo, P x) → (∀ x ∈ s.afifo, P x) →
      (∀ x ∈ (innerLoopF fuel bp ap s).bfifo, P x) ∧
        (∀ x ∈ (innerLoopF fuel bp ap s).afifo, P x) := by
  intro fuel
  induction fuel with
  | zero => intro s hbf haf; exact ⟨hbf, haf⟩
  | succ n ih =>
    intro s hbf haf
    obtain ⟨bf, af, o0, d0, t0⟩ := s
    cases bf with
    | nil => rw [innerLoopF_bfifo_nil] <;> simp_all
    | cons bid brest =>
      cases af with
      | nil => rw [innerLoopF_afifo_nil] <;> simp_all
      | cons ask arest =>
        rw [innerLoopF_cons]
        simp only []
        apply ih
        · by_cases hb : (bid.fill (min bid.remainingQuantity ask.remainingQuantity)).isFilled = true <;>
            simp only [hb, if_true, if_false, Bool.false_eq_true, if_neg, not_false_iff]
          · intro x hx; exact hbf x (List.mem_cons_of_mem _ hx)
          · intro x hx
            rcases List.mem_cons.mp hx with h | h
            · subst h; exact hP _ _ (hbf bid (List.mem_cons_self _ _))
            · exact hbf x (List.mem_cons_of_mem _ h)
        · by_cases ha : (ask.fill (min bid.remainingQuantity ask.remainingQuantity)).isFilled = true <;>
            simp only [ha, if_true, if_false, Bool.false_eq_true, if_neg, not_false_iff]
          · intro x hx; exact haf x (List.mem_cons_of_mem _ hx)
          · intro x hx
            rcases List.mem_cons.mp hx with h | h
            · subst h; exact hP _ _ (haf ask (List.mem_cons_self _ _))
            · exact haf x (List.mem_cons_of_mem _ h)

end OB

namespace OB

/-- A trade whose two legs both carry positive quantity. -/
def posTrade (t : Trade) : Prop :=
  0 < t.bidTrade.quantity ∧ 0 < t.askTrade.quantity

/-- When every queued order has positive remaining quantity, the inner loop
keeps that invariant and only emits trades of positive quantity. -/
theorem innerLoopF_pos (bp ap : Int) :
    ∀ (fuel : Nat) (s : MatchState),
      (∀ x ∈ s.bfifo, 0 < x.remainingQuantity) →
      (∀ x ∈ s.afifo, 0 < x.remainingQuantity) →
      (∀ t ∈ s.trades, posTrade t) →
      ((∀ x ∈ (innerLoopF fuel bp ap s).bfifo, 0 < x.remainingQuantity) ∧
       (∀ x ∈ (innerLoopF fuel bp ap s).afifo, 0 < x.remainingQuantity) ∧
       (∀ t ∈ (innerLoopF fuel bp ap s).trades, posTrade t)) := by
  intro fuel
  induction fuel with
  | zero => intro s h1 h2 h3; exact ⟨h1, h2, h3⟩
  | succ n ih =>
    intro s h1 h2 h3
    obtain ⟨bf, af, o0, d0, t0⟩ := s
    cases bf with
    | nil => rw [innerLoopF_bfifo_nil _ _ _ _ rfl]; exact ⟨h1, h2, h3⟩
    | cons bid brest =>
      cases af with
      | nil => rw [innerLoopF_afifo_nil _ _ _ _ rfl]; exact ⟨h1, h2, h3⟩
      | cons ask arest =>
        have hbid : 0 < bid.remainingQuantity := h1 bid (List.mem_cons_self _ _)
        have hask : 0 < ask.remainingQuantity := h2 ask (List.mem_cons_self _ _)
        have hq : 0 < min bid.remainingQuantity ask.remainingQuantity := lt_min hbid hask
        rw [innerLoopF_cons]
        simp only []
        apply ih
        · by_cases hb : (bid.fill (min bid.remainingQuantity ask.remainingQuantity)).isFilled = true <;>
            simp only [hb, if_true, if_false, Bool.false_eq_true, if_neg, not_false_iff]
          · intro x hx; exact h1 x (List.mem_cons_of_mem _ hx)
          · intro x hx
            rcases List.mem_cons.mp hx with h | h
            · subst h
              simp only [Order.isFilled, Order.fill, beq_iff_eq] at hb ⊢
              omega
            · exact h1 x (List.mem_cons_of_mem _ h)
        · by_cases ha : (ask.fill (min bid.remainingQuantity ask.remainingQuantity)).isFilled = true <;>
            simp only [ha, if_true, if_false, Bool.false_eq_true, if_neg, not_false_iff]
          · intro x hx; exact h2 x (List.mem_cons_of_mem _ hx)
          · intro x hx
            rcases List.mem_cons.mp hx with h | h
            · subst h
              simp only [Order.isFilled, Order.fill, beq_iff_eq] at ha ⊢
              omega
            · exact h2 x (List.mem_cons_of_mem _ h)
        · intro t ht
          rcases List.mem_append.mp ht with h | h
          · exact h3 t h
          · rcases List.mem_singleton.mp h with rfl
            exact ⟨hq, hq⟩

/-- The inner loop only appends to the trade list. -/
theorem innerLoopF_trades_mono (bp ap : Int) :
    ∀ (fuel : Nat) (s : MatchState),
      ∃ tl, (innerLoopF fuel bp ap s).trades = s.trades ++ tl := by
  intro fuel
  induction fuel with
  | zero => intro s; exact ⟨[], by simp [innerLoopF]⟩
  | succ n ih =>
    intro s
    obtain ⟨bf, af, o0, d0, t0⟩ := s
    cases bf with
    | nil => exact ⟨[], by rw [innerLoopF_bfifo_nil _ _ _ _ rfl]; simp⟩
    | cons bid brest =>
      cases af with
      | nil => exact ⟨[], by rw [innerLoopF_afifo_nil _ _ _ _ rfl]; simp⟩
      | cons ask arest =>
        have key : ∀ (bf af : List Order) (oo : List Nat) (dd : List (Int × LevelData))
            (t0 : List Trade) (t : Trade),
            ∃ tl, (innerLoopF n bp ap ⟨bf, af, oo, dd, t0 ++ [t]⟩).trades = t0 ++ tl := by
          intro bf af oo dd t0 t
          obtain ⟨tl, htl⟩ := ih ⟨bf, af, oo, dd, t0 ++ [t]⟩
          exact ⟨[t] ++ tl, by rw [htl]; simp⟩
        rw [innerLoopF_cons]
        simp only []
        apply key

/-- When entered with two non-empty queues, the inner loop emits at least
one trade. -/
theorem innerLoopF_cons_emits (bp ap : Int) (fuel : Nat) (bid : Order) (brest : List Order)
    (ask : Order) (arest : List Order) (orders0 : List Nat) (data0 : List (Int × LevelData))
    (trades0 : List Trade) :
    trades0.length <
      (innerLoopF (Nat.succ fuel) bp ap ⟨bid :: brest, ask :: arest, orders0, data0, trades0⟩).trades.length := by
  rw [innerLoopF_cons]
  simp only []
  obtain ⟨tl, htl⟩ := innerLoopF_trades_mono bp ap fuel _
  rw [htl]
  simp

/-- The inner loop only erases ids from the id index. -/
theorem innerLoopF_orders_subset (bp ap : Int) :
    ∀ (fuel : Nat) (s : MatchState) (x : Nat),
      x ∈ (innerLoopF fuel bp ap s).orders → x ∈ s.orders := by
  intro fuel
  induction fuel with
  | zero => intro s x hx; exact hx
  | succ n ih =>
    intro s x hx
    obtain ⟨bf, af, o0, d0, t0⟩ := s
    cases bf with
    | nil => rw [innerLoopF_bfifo_nil _ _ _ _ rfl] at hx; exact hx
    | cons bid brest =>
      cases af with
      | nil => rw [innerLoopF_afifo_nil _ _ _ _ rfl] at hx; exact hx
      | cons ask arest =>
        rw [innerLoopF_cons] at hx
        simp only [] at hx
        have hx2 := ih _ _ hx
        simp only [] at hx2
        by_cases hb : (bid.fill (min bid.remainingQuantity ask.remainingQuantity)).isFilled = true <;>
          by_cases ha : (ask.fill (min bid.remainingQuantity ask.remainingQuantity)).isFilled = true <;>
          simp only [hb, ha, if_true, if_false, Bool.false_eq_true, if_neg, not_false_iff] at hx2 <;>
          first
            | exact hx2
            | exact List.mem_of_mem_erase hx2
            | exact List.mem_of_mem_erase (List.mem_of_mem_erase hx2)

end OB

namespace OB

/-- Erasing from a queue only removes elements. -/
theorem fifoErase_subset (id : Nat) (f : List Order) (x : Order) (hx : x ∈ fifoErase id f) :
    x ∈ f := by
  induction f with
  | nil => simpa [fifoErase] using hx
  | cons o rest ih =>
    by_cases h : o.orderId = id
    · simp only [fifoErase, if_pos h] at hx
      exact List.mem_cons_of_mem _ hx
    · simp only [fifoErase, if_neg h] at hx
      rcases List.mem_cons.mp hx with h2 | h2
      · exact h2 ▸ List.mem_cons_self _ _
      · exact List.mem_cons_of_mem _ (ih h2)

/-- Erasing never lengthens a queue. -/
theorem fifoErase_len_le (id : Nat) (f : List Order) : (fifoErase id f).length ≤ f.length := by
  induction f with
  | nil => simp [fifoErase]
  | cons o rest ih =>
    by_cases h : o.orderId = id <;> simp [fifoErase, h] <;> omega

/-- An order found in a side book after `levelsEraseOrder` was already
there. -/
theorem levelsEraseOrder_subset (p : Int) (id : Nat) (l : List (Int × List Order)) (x : Order)
    (hx : x ∈ ((levelsEraseOrder p id l).map Prod.snd).join) :
    x ∈ (l.map Prod.snd).join := by
  induction l with
  | nil => simpa [levelsEraseOrder] using hx
  | cons hd tl ih =>
    obtain ⟨q, fifo⟩ := hd
    by_cases h : p = q
    · simp only [levelsEraseOrder, if_pos h] at hx
      by_cases h2 : (fifoErase id fifo).isEmpty = true
      · simp only [h2, if_true] at hx
        simp only [List.map_cons, List.join_cons, List.mem_append]
        right
        exact hx
      · simp only [h2, Bool.false_eq_true, if_false, List.map_cons, List.join_cons,
          List.mem_append] at hx
        simp only [List.map_cons, List.join_cons, List.mem_append]
        rcases hx with h3 | h3
        · exact Or.inl (fifoErase_subset id fifo x h3)
        · exact Or.inr h3
    · simp only [levelsEraseOrder, if_neg h, List.map_cons, List.join_cons,
        List.mem_append] at hx
      simp only [List.map_cons, List.join_cons, List.mem_append]
      rcases hx with h3 | h3
      · exact Or.inl h3
      · exact Or.inr (ih h3)

/-- `levelsEraseOrder` keeps all levels non-empty. -/
theorem levelsEraseOrder_noEmpty (p : Int) (id : Nat) (l : List (Int × List Order))
    (h : ∀ pf ∈ l, pf.2 ≠ ([] : List Order)) :
    ∀ pf ∈ levelsEraseOrder p id l, pf.2 ≠ ([] : List Order) := by
  induction l with
  | nil => simpa [levelsEraseOrder]
  | cons hd tl ih =>
    obtain ⟨q, fifo⟩ := hd
    intro pf hpf
    by_cases h1 : p = q
    · simp only [levelsEraseOrder, if_pos h1] at hpf
      by_cases h2 : (fifoErase id fifo).isEmpty = true
      · simp only [h2, if_true] at hpf
        exact h pf (List.mem_cons_of_mem _ hpf)
      · simp only [h2, Bool.false_eq_true, if_false] at hpf
        rcases List.mem_cons.mp hpf with h3 | h3
        · subst h3
          simpa [List.isEmpty_iff] using h2
        · exact h pf (List.mem_cons_of_mem _ h3)
    · simp only [levelsEraseOrder, if_neg h1] at hpf
      rcases List.mem_cons.mp hpf with h3 | h3
      · subst h3
        exact h _ (List.mem_cons_self _ _)
      · exact ih (fun x hx => h x (List.mem_cons_of_mem _ hx)) pf h3

/-- `levelsEraseOrder` never increases the total number of resting orders. -/
theorem levelsEraseOrder_len_le (p : Int) (id : Nat) (l : List (Int × List Order)) :
    ((levelsEraseOrder p id l).map fun pf => pf.2.length).sum ≤
      (l.map fun pf => pf.2.length).sum := by
  induction l with
  | nil => simp [levelsEraseOrder]
  | cons hd tl ih =>
    obtain ⟨q, fifo⟩ := hd
    by_cases h1 : p = q
    · simp only [levelsEraseOrder, if_pos h1]
      by_cases h2 : (fifoErase id fifo).isEmpty = true
      · simp only [h2, if_true, List.map_cons, List.sum_cons]
        omega
      · simp only [h2, Bool.false_eq_true, if_false, List.map_cons, List.sum_cons]
        have := fifoErase_len_le id fifo
        omega
    · simp only [levelsEraseOrder, if_neg h1, List.map_cons, List.sum_cons]
      omega

/-- `cancelOrderInternal` on an unindexed id is a no-op. -/
theorem cancelOrderInternal_eq_not_contains (id : Nat) (b : Book)
    (h : b.orders.contains id = false) : cancelOrderInternal id b = b := by
  unfold cancelOrderInternal
  rw [h]
  rfl

/-- `cancelOrderInternal` when the id is indexed but not found in the books
(unreachable when index and books are in sync). -/
theorem cancelOrderInternal_eq_none (id : Nat) (b : Book)
    (h1 : b.orders.contains id = true) (h2 : b.lookupOrder id = none) :
    cancelOrderInternal id b = { b with orders := b.orders.erase id } := by
  unfold cancelOrderInternal
  rw [h1, h2]
  rfl

/-- `cancelOrderInternal` on a resting buy order. -/
theorem cancelOrderInternal_eq_buy (id : Nat) (b : Book) (ord : Order)
    (h1 : b.orders.contains id = true) (h2 : b.lookupOrder id = some ord)
    (h3 : ord.side = Side.Buy) :
    cancelOrderInternal id b =
      ⟨levelsEraseOrder ord.price id b.bids, b.asks, b.orders.erase id,
       updateLevelData ord.price ord.remainingQuantity LDAction.Remove b.data⟩ := by
  obtain ⟨ot, oid, os, op, oiq, orq⟩ := ord
  dsimp only at h3 ⊢
  subst h3
  unfold cancelOrderInternal
  rw [h1, h2]
  rfl

/-- `cancelOrderInternal` on a resting sell order. -/
theorem cancelOrderInternal_eq_sell (id : Nat) (b : Book) (ord : Order)
    (h1 : b.orders.contains id = true) (h2 : b.lookupOrder id = some ord)
    (h3 : ord.side = Side.Sell) :
    cancelOrderInternal id b =
      ⟨b.bids, levelsEraseOrder ord.price id b.asks, b.orders.erase id,
       updateLevelData ord.price ord.remainingQuantity LDAction.Remove b.data⟩ := by
  obtain ⟨ot, oid, os, op, oiq, orq⟩ := ord
  dsimp only at h3 ⊢
  subst h3
  unfold cancelOrderInternal
  rw [h1, h2]
  rfl

/-- An order still resting after `cancelOrderInternal` was resting before. -/
theorem cancelOrderInternal_allOrders_subset (id : Nat) (b : Book) (x : Order)
    (hx : x ∈ (cancelOrderInternal id b).allOrders) : x ∈ b.allOrders := by
  cases h1 : b.orders.contains id with
  | false => rw [cancelOrderInternal_eq_not_contains id b h1] at hx; exact hx
  | true =>
    cases h2 : b.lookupOrder id with
    | none =>
      rw [cancelOrderInternal_eq_none id b h1 h2] at hx
      simpa [Book.allOrders] using hx
    | some ord =>
      cases h3 : ord.side with
      | Buy =>
        rw [cancelOrderInternal_eq_buy id b ord h1 h2 h3] at hx
        simp only [Book.allOrders, List.mem_append] at hx ⊢
        rcases hx with h4 | h4
        · exact Or.inl (levelsEraseOrder_subset _ _ _ _ h4)
        · exact Or.inr h4
      | Sell =>
        rw [cancelOrderInternal_eq_sell id b ord h1 h2 h3] at hx
        simp only [Book.allOrders, List.mem_append] at hx ⊢
        rcases hx with h4 | h4
        · exact Or.inl h4
        · exact Or.inr (levelsEraseOrder_subset _ _ _ _ h4)

/-- `cancelOrderInternal` keeps all levels non-empty. -/
theorem cancelOrderInternal_noEmpty (id : Nat) (b : Book) (h : noEmptyLevels b) :
    noEmptyLevels (cancelOrderInternal id b) := by
  cases h1 : b.orders.contains id with
  | false => rw [cancelOrderInternal_eq_not_contains id b h1]; exact h
  | true =>
    cases h2 : b.lookupOrder id with
    | none =>
      rw [cancelOrderInternal_eq_none id b h1 h2]
      exact h
    | some ord =>
      cases h3 : ord.side with
      | Buy =>
        rw [cancelOrderInternal_eq_buy id b ord h1 h2 h3]
        exact ⟨levelsEraseOrder_noEmpty _ _ _ h.1, h.2⟩
      | Sell =>
        rw [cancelOrderInternal_eq_sell id b ord h1 h2 h3]
        exact ⟨h.1, levelsEraseOrder_noEmpty _ _ _ h.2⟩

/-- `cancelOrderInternal` never increases the number of resting orders. -/
theorem cancelOrderInternal_total_le (id : Nat) (b : Book) :
    totalOrders (cancelOrderInternal id b) ≤ totalOrders b := by
  cases h1 : b.orders.contains id with
  | false => rw [cancelOrderInternal_eq_not_contains id b h1]
  | true =>
    cases h2 : b.lookupOrder id with
    | none =>
      rw [cancelOrderInternal_eq_none id b h1 h2]
      simp [totalOrders]
    | some ord =>
      cases h3 : ord.side with
      | Buy =>
        rw [cancelOrderInternal_eq_buy id b ord h1 h2 h3]
        have := levelsEraseOrder_len_le ord.price id b.bids
        simp only [totalOrders]
        omega
      | Sell =>
        rw [cancelOrderInternal_eq_sell id b ord h1 h2 h3]
        have := levelsEraseOrder_len_le ord.price id b.asks
        simp only [totalOrders]
        omega

/-- `fakCancelBidTop` when the bid book is empty. -/
theorem fakCancelBidTop_eq_nil (b : Book) (h : b.bids = []) : fakCancelBidTop b = b := by
  unfold fakCancelBidTop
  rw [h]

/-- `fakCancelBidTop` when the best bid queue is empty (unreachable for
books without empty levels). -/
theorem fakCancelBidTop_eq_empty (b : Book) (q : Int) (tl : List (Int × List Order))
    (h : b.bids = (q, []) :: tl) : fakCancelBidTop b = b := by
  unfold fakCancelBidTop
  rw [h]

/-- `fakCancelBidTop` when the best bid queue has a front order. -/
theorem fakCancelBidTop_eq_cons (b : Book) (q : Int) (ord : Order) (rest : List Order)
    (tl : List (Int × List Order)) (h : b.bids = (q, ord :: rest) :: tl) :
    fakCancelBidTop b =
      if ord.orderType = OrderType.FillAndKill then cancelOrderInternal ord.orderId b else b := by
  unfold fakCancelBidTop
  rw [h]

/-- `fakCancelAskTop` when the ask book is empty. -/
theorem fakCancelAskTop_eq_nil (b : Book) (h : b.asks = []) : fakCancelAskTop b = b := by
  unfold fakCancelAskTop
  rw [h]

/-- `fakCancelAskTop` when the best ask queue is empty (unreachable for
books without empty levels). -/
theorem fakCancelAskTop_eq_empty (b : Book) (q : Int) (tl : List (Int × List Order))
    (h : b.asks = (q, []) :: tl) : fakCancelAskTop b = b := by
  unfold fakCancelAskTop
  rw [h]

/-- `fakCancelAskTop` when the best ask queue has a front order. -/
theorem fakCancelAskTop_eq_cons (b : Book) (q : Int) (ord : Order) (rest : List Order)
    (tl : List (Int × List Order)) (h : b.asks = (q, ord :: rest) :: tl) :
    fakCancelAskTop b =
      if ord.orderType = OrderType.FillAndKill then cancelOrderInternal ord.orderId b else b := by
  unfold fakCancelAskTop
  rw [h]

/-- The FillAndKill bid-top sweep only removes orders. -/
theorem fakCancelBidTop_allOrders_subset (b : Book) (x : Order)
    (hx : x ∈ (fakCancelBidTop b).allOrders) : x ∈ b.allOrders := by
  cases hb : b.bids with
  | nil => rw [fakCancelBidTop_eq_nil b hb] at hx; exact hx
  | cons hd tl =>
    obtain ⟨q, fifo⟩ := hd
    cases hf : fifo with
    | nil =>
      rw [hf] at hb
      rw [fakCancelBidTop_eq_empty b q tl hb] at hx
      exact hx
    | cons ord rest =>
      rw [hf] at hb
      rw [fakCancelBidTop_eq_cons b q ord rest tl hb] at hx
      by_cases h : ord.orderType = OrderType.FillAndKill
      · rw [if_pos h] at hx
        exact cancelOrderInternal_allOrders_subset _ _ _ hx
      · rw [if_neg h] at hx
        exact hx

/-- The FillAndKill ask-top sweep only removes orders. -/
theorem fakCancelAskTop_allOrders_subset (b : Book) (x : Order)
    (hx : x ∈ (fakCancelAskTop b).allOrders) : x ∈ b.allOrders := by
  cases hb : b.asks with
  | nil => rw [fakCancelAskTop_eq_nil b hb] at hx; exact hx
  | cons hd tl =>
    obtain ⟨q, fifo⟩ := hd
    cases hf : fifo with
    | nil =>
      rw [hf] at hb
      rw [fakCancelAskTop_eq_empty b q tl hb] at hx
      exact hx
    | cons ord rest =>
      rw [hf] at hb
      rw [fakCancelAskTop_eq_cons b q ord rest tl hb] at hx
      by_cases h : ord.orderType = OrderType.FillAndKill
      · rw [if_pos h] at hx
        exact cancelOrderInternal_allOrders_subset _ _ _ hx
      · rw [if_neg h] at hx
        exact hx

/-- The FillAndKill bid-top sweep keeps all levels non-empty. -/
theorem fakCancelBidTop_noEmpty (b : Book) (h : noEmptyLevels b) :
    noEmptyLevels (fakCancelBidTop b) := by
  cases hb : b.bids with
  | nil => rw [fakCancelBidTop_eq_nil b hb]; exact h
  | cons hd tl =>
    obtain ⟨q, fifo⟩ := hd
    cases hf : fifo with
    | nil =>
      rw [hf] at hb
      rw [fakCancelBidTop_eq_empty b q tl hb]
      exact h
    | cons ord rest =>
      rw [hf] at hb
      rw [fakCancelBidTop_eq_cons b q ord rest tl hb]
      by_cases h2 : ord.orderType = OrderType.FillAndKill
      · rw [if_pos h2]
        exact cancelOrderInternal_noEmpty _ _ h
      · rw [if_neg h2]
        exact h

/-- The FillAndKill ask-top sweep keeps all levels non-empty. -/
theorem fakCancelAskTop_noEmpty (b : Book) (h : noEmptyLevels b) :
    noEmptyLevels (fakCancelAskTop b) := by
  cases hb : b.asks with
  | nil => rw [fakCancelAskTop_eq_nil b hb]; exact h
  | cons hd tl =>
    obtain ⟨q, fifo⟩ := hd
    cases hf : fifo with
    | nil =>
      rw [hf] at hb
      rw [fakCancelAskTop_eq_empty b q tl hb]
      exact h
    | cons ord rest =>
      rw [hf] at hb
      rw [fakCancelAskTop_eq_cons b q ord rest tl hb]
      by_cases h2 : ord.orderType = OrderType.FillAndKill
      · rw [if_pos h2]
        exact cancelOrderInternal_noEmpty _ _ h
      · rw [if_neg h2]
        exact h

/-- The FillAndKill bid-top sweep never increases the resting order count. -/
theorem fakCancelBidTop_total_le (b : Book) : totalOrders (fakCancelBidTop b) ≤ totalOrders b := by
  cases hb : b.bids with
  | nil => rw [fakCancelBidTop_eq_nil b hb]
  | cons hd tl =>
    obtain ⟨q, fifo⟩ := hd
    cases hf : fifo with
    | nil =>
      rw [hf] at hb
      rw [fakCancelBidTop_eq_empty b q tl hb]
    | cons ord rest =>
      rw [hf] at hb
      rw [fakCancelBidTop_eq_cons b q ord rest tl hb]
      by_cases h2 : ord.orderType = OrderType.FillAndKill
      · rw [if_pos h2]
        exact cancelOrderInternal_total_le _ _
      · rw [if_neg h2]

/-- The FillAndKill ask-top sweep never increases the resting order count. -/
theorem fakCancelAskTop_total_le (b : Book) : totalOrders (fakCancelAskTop b) ≤ totalOrders b := by
  cases hb : b.asks with
  | nil => rw [fakCancelAskTop_eq_nil b hb]
  | cons hd tl =>
    obtain ⟨q, fifo⟩ := hd
    cases hf : fifo with
    | nil =>
      rw [hf] at hb
      rw [fakCancelAskTop_eq_empty b q tl hb]
    | cons ord rest =>
      rw [hf] at hb
      rw [fakCancelAskTop_eq_cons b q ord rest tl hb]
      by_cases h2 : ord.orderType = OrderType.FillAndKill
      · rw [if_pos h2]
        exact cancelOrderInternal_total_le _ _
      · rw [if_neg h2]

end OB

namespace OB

/-- The outer loop breaks as soon as the best prices do not cross. -/
theorem matchLoop_break (fuel : Nat) (b : Book) (acc : List Trade)
    (bp ap : Int) (bfifo afifo : List Order)
    (brest arest : List (Int × List Order))
    (hb : b.bids = (bp, bfifo) :: brest) (ha : b.asks = (ap, afifo) :: arest)
    (hlt : bp < ap) :
    matchLoop (Nat.succ fuel) b acc = (b, acc) := by
  unfold matchLoop
  rw [hb, ha]
  simp only [hlt, if_true]

/-- One unfolding step of the outer loop when the best prices cross. -/
theorem matchLoop_step (fuel : Nat) (bp ap : Int) (bfifo afifo : List Order)
    (brest arest : List (Int × List Order)) (orders : List Nat)
    (data : List (Int × LevelData)) (acc : List Trade) (hlt : ¬(bp < ap)) :
    matchLoop (Nat.succ fuel) ⟨(bp, bfifo) :: brest, (ap, afifo) :: arest, orders, data⟩ acc =
      (let s := innerLoop bp ap ⟨bfifo, afifo, orders, data, []⟩
       let bids1 := if s.bfifo.isEmpty then brest else (bp, s.bfifo) :: brest
       let asks1 := if s.afifo.isEmpty then arest else (ap, s.afifo) :: arest
       matchLoop fuel (fakCancelAskTop (fakCancelBidTop ⟨bids1, asks1, s.orders, s.data⟩))
         (acc ++ s.trades)) := by
  conv =>
    lhs
    unfold matchLoop
  dsimp only
  rw [if_neg hlt]

/-- A not-crossed book is a fixed point of the outer loop. -/
theorem matchLoop_of_notCrossed (fuel : Nat) (b : Book) (acc : List Trade)
    (h : notCrossed b) : matchLoop fuel b acc = (b, acc) := by
  cases fuel with
  | zero => rfl
  | succ n =>
    cases hb : b.bids with
    | nil => exact matchLoop_bids_nil _ _ _ hb
    | cons bhd btl =>
      cases ha : b.asks with
      | nil => exact matchLoop_asks_nil _ _ _ ha
      | cons ahd atl =>
        obtain ⟨bp, bfifo⟩ := bhd
        obtain ⟨ap, afifo⟩ := ahd
        unfold notCrossed at h
        rw [hb, ha] at h
        exact matchLoop_break n b acc bp ap bfifo afifo btl atl hb ha h

/-- The outer loop only appends to the trade list. -/
theorem matchLoop_trades_mono :
    ∀ (fuel : Nat) (b : Book) (acc : List Trade),
      ∃ tl, (matchLoop fuel b acc).2 = acc ++ tl := by
  intro fuel
  induction fuel with
  | zero => intro b acc; exact ⟨[], by simp [matchLoop]⟩
  | succ n ih =>
    intro b acc
    obtain ⟨bids, asks, orders, data⟩ := b
    cases bids with
    | nil => exact ⟨[], by rw [matchLoop_bids_nil _ _ _ rfl]; simp⟩
    | cons bhd brest =>
      cases asks with
      | nil => exact ⟨[], by rw [matchLoop_asks_nil _ _ _ rfl]; simp⟩
      | cons ahd arest =>
        obtain ⟨bp, bfifo⟩ := bhd
        obtain ⟨ap, afifo⟩ := ahd
        by_cases hlt : bp < ap
        · exact ⟨[], by rw [matchLoop_break n _ acc bp ap bfifo afifo brest arest rfl rfl hlt]; simp⟩
        · rw [matchLoop_step n bp ap bfifo afifo brest arest orders data acc hlt]
          simp only []
          obtain ⟨tl, htl⟩ := ih _ (acc ++ (innerLoop bp ap ⟨bfifo, afifo, orders, data, []⟩).trades)
          exact ⟨(innerLoop bp ap ⟨bfifo, afifo, orders, data, []⟩).trades ++ tl,
            by rw [htl]; simp⟩

/-- Membership in `allOrders` through the best bid queue. -/
theorem mem_allOrders_of_bfifo (bp : Int) (bfifo : List Order)
    (brest : List (Int × List Order)) (asks : List (Int × List Order))
    (orders : List Nat) (data : List (Int × LevelData)) (x : Order) (hx : x ∈ bfifo) :
    x ∈ (Book.mk ((bp, bfifo) :: brest) asks orders data).allOrders := by
  unfold Book.allOrders
  simp only [List.map_cons, List.join_cons]
  exact List.mem_append.mpr (Or.inl (List.mem_append.mpr (Or.inl hx)))

/-- Membership in `allOrders` through the non-best bid levels. -/
theorem mem_allOrders_of_brest (bp : Int) (bfifo : List Order)
    (brest : List (Int × List Order)) (asks : List (Int × List Order))
    (orders : List Nat) (data : List (Int × LevelData)) (x : Order)
    (hx : x ∈ (brest.map Prod.snd).join) :
    x ∈ (Book.mk ((bp, bfifo) :: brest) asks orders data).allOrders := by
  unfold Book.allOrders
  simp only [List.map_cons, List.join_cons]
  exact List.mem_append.mpr (Or.inl (List.mem_append.mpr (Or.inr hx)))

/-- Membership in `allOrders` through the best ask queue. -/
theorem mem_allOrders_of_afifo (ap : Int) (afifo : List Order)
    (arest : List (Int × List Order)) (bids : List (Int × List Order))
    (orders : List Nat) (data : List (Int × LevelData)) (x : Order) (hx : x ∈ afifo) :
    x ∈ (Book.mk bids ((ap, afifo) :: arest) orders data).allOrders := by
  unfold Book.allOrders
  simp only [List.map_cons, List.join_cons]
  exact List.mem_append.mpr (Or.inr (List.mem_append.mpr (Or.inl hx)))

/-- Membership in `allOrders` through the non-best ask levels. -/
theorem mem_allOrders_of_arest (ap : Int) (afifo : List Order)
    (arest : List (Int × List Order)) (bids : List (Int × List Order))
    (orders : List Nat) (data : List (Int × LevelData)) (x : Order)
    (hx : x ∈ (arest.map Prod.snd).join) :
    x ∈ (Book.mk bids ((ap, afifo) :: arest) orders data).allOrders := by
  unfold Book.allOrders
  simp only [List.map_cons, List.join_cons]
  exact List.mem_append.mpr (Or.inr (List.mem_append.mpr (Or.inr hx)))

/-- The outer loop preserves "no FillAndKill order rests". -/
theorem matchLoop_noFaK :
    ∀ (fuel : Nat) (b : Book) (acc : List Trade),
      noRestingFaK b → noRestingFaK (matchLoop fuel b acc).1 := by
  intro fuel
  induction fuel with
  | zero => intro b acc h; exact h
  | succ n ih =>
    intro b acc h
    obtain ⟨bids, asks, orders, data⟩ := b
    cases bids with
    | nil => rw [matchLoop_bids_nil _ _ _ rfl]; exact h
    | cons bhd brest =>
      cases asks with
      | nil => rw [matchLoop_asks_nil _ _ _ rfl]; exact h
      | cons ahd arest =>
        obtain ⟨bp, bfifo⟩ := bhd
        obtain ⟨ap, afifo⟩ := ahd
        by_cases hlt : bp < ap
        · rw [matchLoop_break n _ acc bp ap bfifo afifo brest arest rfl rfl hlt]
          exact h
        · rw [matchLoop_step n bp ap bfifo afifo brest arest orders data acc hlt]
          simp only []
          apply ih
          intro x hx
          have hpred := innerLoopF_pred bp ap (fun o => o.orderType ≠ OrderType.FillAndKill)
            (fun o q hP => hP) (bfifo.length + afifo.length)
            ⟨bfifo, afifo, orders, data, []⟩
            (fun y hy => h y (mem_allOrders_of_bfifo bp bfifo brest _ orders data y hy))
            (fun y hy => h y (mem_allOrders_of_afifo ap afifo arest _ orders data y hy))
          have hx2 := fakCancelBidTop_allOrders_subset _ _ (fakCancelAskTop_allOrders_subset _ _ hx)
          simp only [Book.allOrders, List.mem_append] at hx2
          rcases hx2 with h4 | h4
          · by_cases he : (innerLoop bp ap ⟨bfifo, afifo, orders, data, []⟩).bfifo.isEmpty = true <;>
              simp only [he, if_true, Bool.false_eq_true, if_false] at h4
            · exact h x (mem_allOrders_of_brest bp bfifo brest _ orders data x h4)
            · simp only [List.map_cons, List.join_cons, List.mem_append] at h4
              rcases h4 with h5 | h5
              · exact hpred.1 x h5
              · exact h x (mem_allOrders_of_brest bp bfifo brest _ orders data x h5)
          · by_cases he : (innerLoop bp ap ⟨bfifo, afifo, orders, data, []⟩).afifo.isEmpty = true <;>
              simp only [he, if_true, Bool.false_eq_true, if_false] at h4
            · exact h x (mem_allOrders_of_arest ap afifo arest _ orders data x h4)
            · simp only [List.map_cons, List.join_cons, List.mem_append] at h4
              rcases h4 with h5 | h5
              · exact hpred.2 x h5
              · exact h x (mem_allOrders_of_arest ap afifo arest _ orders data x h5)

end OB

namespace OB

/-- With fuel exceeding the number of resting orders, the outer loop runs to
a genuine break, so the resulting book is not crossed.  This is the formal
counterpart of the source's unbounded `while (true)`: each iteration that
does not break removes at least one resting order. -/
theorem matchLoop_notCrossed :
    ∀ (fuel : Nat) (b : Book) (acc : List Trade),
      noEmptyLevels b → totalOrders b < fuel → notCrossed (matchLoop fuel b acc).1 := by
  intro fuel
  induction fuel with
  | zero => intro b acc hne hlt; omega
  | succ n ih =>
    intro b acc hne hlt
    obtain ⟨bids, asks, orders, data⟩ := b
    cases bids with
    | nil =>
      rw [matchLoop_bids_nil _ _ _ rfl]
      unfold notCrossed
      simp
    | cons bhd brest =>
      cases asks with
      | nil =>
        rw [matchLoop_asks_nil _ _ _ rfl]
        unfold notCrossed
        obtain ⟨bp, bfifo⟩ := bhd
        simp
      | cons ahd arest =>
        obtain ⟨bp, bfifo⟩ := bhd
        obtain ⟨ap, afifo⟩ := ahd
        by_cases hcross : bp < ap
        · rw [matchLoop_break n _ acc bp ap bfifo afifo brest arest rfl rfl hcross]
          unfold notCrossed
          simpa using hcross
        · rw [matchLoop_step n bp ap bfifo afifo brest arest orders data acc hcross]
          simp only []
          cases hbf : bfifo with
          | nil =>
            exact absurd (hne.1 (bp, bfifo) (List.mem_cons_self _ _) ) (by simp [hbf])
          | cons bo brest2 =>
            cases haf : afifo with
            | nil =>
              exact absurd (hne.2 (ap, afifo) (List.mem_cons_self _ _)) (by simp [haf])
            | cons ao arest2 =>
              subst hbf
              subst haf
              set s := innerLoop bp ap ⟨bo :: brest2, ao :: arest2, orders, data, []⟩ with hs
              have hlen : s.bfifo.length + s.afifo.length <
                  (bo :: brest2).length + (ao :: arest2).length := by
                rw [hs]
                exact innerLoopF_len_lt bp ap ((brest2.length + 1) + arest2.length)
                  bo brest2 ao arest2 orders data []
              apply ih
              · apply fakCancelAskTop_noEmpty
                apply fakCancelBidTop_noEmpty
                constructor
                · intro pf hpf
                  by_cases he : s.bfifo.isEmpty = true <;>
                    simp only [he, if_true, Bool.false_eq_true, if_false] at hpf
                  · exact hne.1 pf (List.mem_cons_of_mem _ hpf)
                  · rcases List.mem_cons.mp hpf with h2 | h2
                    · subst h2
                      simpa [List.isEmpty_iff] using he
                    · exact hne.1 pf (List.mem_cons_of_mem _ h2)
                · intro pf hpf
                  by_cases he : s.afifo.isEmpty = true <;>
                    simp only [he, if_true, Bool.false_eq_true, if_false] at hpf
                  · exact hne.2 pf (List.mem_cons_of_mem _ hpf)
                  · rcases List.mem_cons.mp hpf with h2 | h2
                    · subst h2
                      simpa [List.isEmpty_iff] using he
                    · exact hne.2 pf (List.mem_cons_of_mem _ h2)
              · have hbz : s.bfifo.isEmpty = true → s.bfifo.length = 0 := by
                  intro he
                  rw [List.isEmpty_iff] at he
                  simp [he]
                have haz : s.afifo.isEmpty = true → s.afifo.length = 0 := by
                  intro he
                  rw [List.isEmpty_iff] at he
                  simp [he]
                simp only [List.length_cons] at hlen
                have htot1 : totalOrders ⟨(if s.bfifo.isEmpty = true then brest
                      else (bp, s.bfifo) :: brest),
                    (if s.afifo.isEmpty = true then arest else (ap, s.afifo) :: arest),
                    s.orders, s.data⟩ <
                    totalOrders ⟨(bp, bo :: brest2) :: brest, (ap, ao :: arest2) :: arest,
                      orders, data⟩ := by
                  by_cases he1 : s.bfifo.isEmpty = true <;> by_cases he2 : s.afifo.isEmpty = true
                  · have h5 := hbz he1
                    have h6 := haz he2
                    simp only [he1, he2, if_true, totalOrders, List.map_cons, List.sum_cons,
                      List.length_cons]
                    omega
                  · have h5 := hbz he1
                    simp only [he1, he2, if_true, Bool.false_eq_true, if_false, totalOrders,
                      List.map_cons, List.sum_cons, List.length_cons]
                    omega
                  · have h6 := haz he2
                    simp only [he1, he2, if_true, Bool.false_eq_true, if_false, totalOrders,
                      List.map_cons, List.sum_cons, List.length_cons]
                    omega
                  · simp only [he1, he2, Bool.false_eq_true, if_false, totalOrders,
                      List.map_cons, List.sum_cons, List.length_cons]
                    omega
                have h2 := fakCancelBidTop_total_le ⟨(if s.bfifo.isEmpty = true then brest
                      else (bp, s.bfifo) :: brest),
                    (if s.afifo.isEmpty = true then arest else (ap, s.afifo) :: arest),
                    s.orders, s.data⟩
                have h3 := fakCancelAskTop_total_le (fakCancelBidTop
                    ⟨(if s.bfifo.isEmpty = true then brest else (bp, s.bfifo) :: brest),
                    (if s.afifo.isEmpty = true then arest else (ap, s.afifo) :: arest),
                    s.orders, s.data⟩)
                omega

end OB

namespace OB

/-- `bidsAdd` keeps all levels non-empty. -/
theorem bidsAdd_noEmpty (p : Int) (o : Order) (l : List (Int × List Order))
    (h : ∀ pf ∈ l, pf.2 ≠ ([] : List Order)) :
    ∀ pf ∈ bidsAdd p o l, pf.2 ≠ ([] : List Order) := by
  induction l with
  | nil => simp [bidsAdd]
  | cons hd tl ih =>
    obtain ⟨q, fifo⟩ := hd
    intro pf hpf
    by_cases h1 : q < p
    · simp only [bidsAdd, if_pos h1] at hpf
      rcases List.mem_cons.mp hpf with h2 | h2
      · subst h2; simp
      · exact h pf h2
    · by_cases h2 : p = q
      · simp only [bidsAdd, if_neg h1, if_pos h2] at hpf
        rcases List.mem_cons.mp hpf with h3 | h3
        · subst h3; simp
        · exact h pf (List.mem_cons_of_mem _ h3)
      · simp only [bidsAdd, if_neg h1, if_neg h2] at hpf
        rcases List.mem_cons.mp hpf with h3 | h3
        · subst h3; exact h _ (List.mem_cons_self _ _)
        · exact ih (fun x hx => h x (List.mem_cons_of_mem _ hx)) pf h3

/-- `asksAdd` keeps all levels non-empty. -/
theorem asksAdd_noEmpty (p : Int) (o : Order) (l : List (Int × List Order))
    (h : ∀ pf ∈ l, pf.2 ≠ ([] : List Order)) :
    ∀ pf ∈ asksAdd p o l, pf.2 ≠ ([] : List Order) := by
  induction l with
  | nil => simp [asksAdd]
  | cons hd tl ih =>
    obtain ⟨q, fifo⟩ := hd
    intro pf hpf
    by_cases h1 : p < q
    · simp only [asksAdd, if_pos h1] at hpf
      rcases List.mem_cons.mp hpf with h2 | h2
      · subst h2; simp
      · exact h pf h2
    · by_cases h2 : p = q
      · simp only [asksAdd, if_neg h1, if_pos h2] at hpf
        rcases List.mem_cons.mp hpf with h3 | h3
        · subst h3; simp
        · exact h pf (List.mem_cons_of_mem _ h3)
      · simp only [asksAdd, if_neg h1, if_neg h2] at hpf
        rcases List.mem_cons.mp hpf with h3 | h3
        · subst h3; exact h _ (List.mem_cons_self _ _)
        · exact ih (fun x hx => h x (List.mem_cons_of_mem _ hx)) pf h3

/-- `addOrder` rejects a duplicate id. -/
theorem addOrder_eq_dup (o : Order) (b : Book) (h : b.orders.contains o.orderId = true) :
    addOrder o b = (b, []) := by
  unfold addOrder
  rw [if_pos h]

/-- `addOrder` rejects an unmatchable FillAndKill. -/
theorem addOrder_eq_fak_reject (o : Order) (b : Book)
    (h1 : b.orders.contains o.orderId = false)
    (h2 : o.orderType = OrderType.FillAndKill ∧ (!canMatch b o.side o.price) = true) :
    addOrder o b = (b, []) := by
  unfold addOrder
  rw [h1]
  simp only [Bool.false_eq_true, if_false]
  rw [if_pos h2]

/-- `addOrder` rejects an unfillable FillOrKill. -/
theorem addOrder_eq_fok_reject (o : Order) (b : Book)
    (h1 : b.orders.contains o.orderId = false)
    (h2 : ¬(o.orderType = OrderType.FillAndKill ∧ (!canMatch b o.side o.price) = true))
    (h3 : o.orderType = OrderType.FillOrKill ∧
      (!canFullyFill b o.side o.price o.initialQuantity) = true) :
    addOrder o b = (b, []) := by
  unfold addOrder
  rw [h1]
  simp only [Bool.false_eq_true, if_false]
  rw [if_neg h2, if_pos h3]

/-- `addOrder` on an admitted buy order: tail insertion into the bid book,
index and level data registration, then the crossing loop. -/
theorem addOrder_eq_insert_buy (o : Order) (b : Book) (hside : o.side = Side.Buy)
    (h1 : b.orders.contains o.orderId = false)
    (h2 : ¬(o.orderType = OrderType.FillAndKill ∧ (!canMatch b o.side o.price) = true))
    (h3 : ¬(o.orderType = OrderType.FillOrKill ∧
      (!canFullyFill b o.side o.price o.initialQuantity) = true)) :
    addOrder o b = matchOrders ⟨bidsAdd o.price o b.bids, b.asks, o.orderId :: b.orders,
      updateLevelData o.price o.initialQuantity LDAction.Add b.data⟩ := by
  unfold addOrder
  rw [h1]
  simp only [Bool.false_eq_true, if_false]
  rw [if_neg h2, if_neg h3, hside]

/-- `addOrder` on an admitted sell order. -/
theorem addOrder_eq_insert_sell (o : Order) (b : Book) (hside : o.side = Side.Sell)
    (h1 : b.orders.contains o.orderId = false)
    (h2 : ¬(o.orderType = OrderType.FillAndKill ∧ (!canMatch b o.side o.price) = true))
    (h3 : ¬(o.orderType = OrderType.FillOrKill ∧
      (!canFullyFill b o.side o.price o.initialQuantity) = true)) :
    addOrder o b = matchOrders ⟨b.bids, asksAdd o.price o b.asks, o.orderId :: b.orders,
      updateLevelData o.price o.initialQuantity LDAction.Add b.data⟩ := by
  unfold addOrder
  rw [h1]
  simp only [Bool.false_eq_true, if_false]
  rw [if_neg h2, if_neg h3, hside]

/-- `modifyOrder` on an unknown id is a no-op. -/
theorem modifyOrder_eq_not_contains (req : OrderModify) (b : Book)
    (h : b.orders.contains req.orderId = false) : modifyOrder req b = (b, []) := by
  unfold modifyOrder
  rw [h]
  rfl

/-- `modifyOrder` when the id is indexed but not found in the books
(unreachable when index and books are in sync). -/
theorem modifyOrder_eq_none (req : OrderModify) (b : Book)
    (h1 : b.orders.contains req.orderId = true) (h2 : b.lookupOrder req.orderId = none) :
    modifyOrder req b = (b, []) := by
  unfold modifyOrder
  rw [h1, h2]
  rfl

/-- `modifyOrder` on a resting order is cancel-then-replace, preserving the
original order's type. -/
theorem modifyOrder_eq_some (req : OrderModify) (b : Book) (ex : Order)
    (h1 : b.orders.contains req.orderId = true) (h2 : b.lookupOrder req.orderId = some ex) :
    modifyOrder req b =
      addOrder (mkOrder ex.orderType req.orderId req.side req.price req.quantity)
        (cancelOrder req.orderId b) := by
  unfold modifyOrder
  rw [h1, h2]
  rfl

/-- `notCrossed` only depends on the two side books. -/
theorem notCrossed_mk (bids asks : List (Int × List Order)) (o1 o2 : List Nat)
    (d1 d2 : List (Int × LevelData)) :
    notCrossed ⟨bids, asks, o1, d1⟩ ↔ notCrossed ⟨bids, asks, o2, d2⟩ := Iff.rfl

/-- `cancelOrderInternal` never crosses a book. -/
theorem cancelOrderInternal_notCrossed (id : Nat) (b : Book) (hs : sortedBook b)
    (hnc : notCrossed b) : notCrossed (cancelOrderInternal id b) := by
  cases h1 : b.orders.contains id with
  | false => rw [cancelOrderInternal_eq_not_contains id b h1]; exact hnc
  | true =>
    cases h2 : b.lookupOrder id with
    | none =>
      rw [cancelOrderInternal_eq_none id b h1 h2]
      exact hnc
    | some ord =>
      cases h3 : ord.side with
      | Buy =>
        rw [cancelOrderInternal_eq_buy id b ord h1 h2 h3]
        unfold notCrossed at hnc ⊢
        cases hb : b.bids with
        | nil => simp [levelsEraseOrder]
        | cons bhd btl =>
          obtain ⟨q, fifo⟩ := bhd
          simp only [levelsEraseOrder]
          by_cases h4 : ord.price = q
          · rw [if_pos h4]
            by_cases h5 : (fifoErase id fifo).isEmpty = true
            · rw [if_pos h5]
              cases btl with
              | nil => simp
              | cons b2 btl2 =>
                obtain ⟨q2, fifo2⟩ := b2
                cases ha : b.asks with
                | nil => simp
                | cons ahd atl =>
                  obtain ⟨ap, afifo⟩ := ahd
                  rw [hb, ha] at hnc
                  simp only at hnc ⊢
                  have hq2 : q2 < q := by
                    have := hs.1
                    rw [hb] at this
                    exact (List.pairwise_cons.mp this).1 (q2, fifo2) (List.mem_cons_self _ _)
                  omega
            · rw [if_neg h5]
              cases ha : b.asks with
              | nil => simp
              | cons ahd atl =>
                obtain ⟨ap, afifo⟩ := ahd
                rw [hb, ha] at hnc
                simpa using hnc
          · rw [if_neg h4]
            cases ha : b.asks with
            | nil => simp
            | cons ahd atl =>
              obtain ⟨ap, afifo⟩ := ahd
              rw [hb, ha] at hnc
              simpa using hnc
      | Sell =>
        rw [cancelOrderInternal_eq_sell id b ord h1 h2 h3]
        unfold notCrossed at hnc ⊢
        cases hb : b.bids with
        | nil => simp
        | cons bhd btl =>
          obtain ⟨bp, bfifo⟩ := bhd
          cases ha : b.asks with
          | nil => simp [levelsEraseOrder]
          | cons ahd atl =>
            obtain ⟨q, fifo⟩ := ahd
            simp only [levelsEraseOrder]
            by_cases h4 : ord.price = q
            · rw [if_pos h4]
              by_cases h5 : (fifoErase id fifo).isEmpty = true
              · rw [if_pos h5]
                cases atl with
                | nil => simp
                | cons a2 atl2 =>
                  obtain ⟨q2, fifo2⟩ := a2
                  rw [hb, ha] at hnc
                  simp only at hnc ⊢
                  have hq2 : q < q2 := by
                    have := hs.2
                    rw [ha] at this
                    exact (List.pairwise_cons.mp this).1 (q2, fifo2) (List.mem_cons_self _ _)
                  omega
              · rw [if_neg h5]
                rw [hb, ha] at hnc
                simpa using hnc
            · rw [if_neg h4]
              rw [hb, ha] at hnc
              simpa using hnc

/-- An admitted order leaves `addOrder` through the crossing loop, which
ends on a not-crossed book; a rejected order leaves the book unchanged. -/
theorem addOrder_notCrossed (o : Order) (b : Book) (hne : noEmptyLevels b)
    (hnc : notCrossed b) : notCrossed (addOrder o b).1 := by
  cases h1 : b.orders.contains o.orderId with
  | true => rw [addOrder_eq_dup o b h1]; exact hnc
  | false =>
    by_cases h2 : o.orderType = OrderType.FillAndKill ∧ (!canMatch b o.side o.price) = true
    · rw [addOrder_eq_fak_reject o b h1 h2]; exact hnc
    · by_cases h3 : o.orderType = OrderType.FillOrKill ∧
          (!canFullyFill b o.side o.price o.initialQuantity) = true
      · rw [addOrder_eq_fok_reject o b h1 h2 h3]; exact hnc
      · cases hside : o.side with
        | Buy =>
          rw [addOrder_eq_insert_buy o b hside h1 h2 h3]
          unfold matchOrders
          apply matchLoop_notCrossed
          · exact ⟨bidsAdd_noEmpty _ _ _ hne.1, hne.2⟩
          · omega
        | Sell =>
          rw [addOrder_eq_insert_sell o b hside h1 h2 h3]
          unfold matchOrders
          apply matchLoop_notCrossed
          · exact ⟨hne.1, asksAdd_noEmpty _ _ _ hne.2⟩
          · omega

/-- C5: after every public operation (`add_order`, `cancel_order`,
`modify_order`) on a well-formed book (sorted side books, no empty levels,
not crossed), the resulting book is not crossed: either the best bid is
strictly below the best ask or one side is empty.  For admitted orders this
is the break condition of the crossing loop; rejections and cancellations
preserve the pre-existing property. -/
theorem C5_not_crossed_after_ops (b : Book) (hs : sortedBook b) (hne : noEmptyLevels b)
    (hnc : notCrossed b) :
    (∀ o : Order, notCrossed (addOrder o b).1) ∧
    (∀ id : Nat, notCrossed (cancelOrder id b)) ∧
    (∀ req : OrderModify, notCrossed (modifyOrder req b).1) := by
  refine ⟨fun o => addOrder_notCrossed o b hne hnc,
    fun id => cancelOrderInternal_notCrossed id b hs hnc, fun req => ?_⟩
  cases h1 : b.orders.contains req.orderId with
  | false => rw [modifyOrder_eq_not_contains req b h1]; exact hnc
  | true =>
    cases h2 : b.lookupOrder req.orderId with
    | none => rw [modifyOrder_eq_none req b h1 h2]; exact hnc
    | some ex =>
      rw [modifyOrder_eq_some req b ex h1 h2]
      exact addOrder_notCrossed _ _
        (cancelOrderInternal_noEmpty _ _ hne)
        (cancelOrderInternal_notCrossed _ _ hs hnc)

/-- Witness for C5 at a concrete input. -/
theorem C5_not_crossed_after_ops_witness :
    sortedBook emptyBook ∧ noEmptyLevels emptyBook ∧ notCrossed emptyBook ∧
    notCrossed (addOrder (mkOrder OrderType.GoodTillCancel 1 Side.Buy 100 5) emptyBook).1 ∧
    notCrossed (cancelOrder 1 emptyBook) ∧
    notCrossed (modifyOrder (OrderModify.mk 1 Side.Buy 100 5) emptyBook).1 := by
  have hs : sortedBook emptyBook := ⟨List.Pairwise.nil, List.Pairwise.nil⟩
  have hne : noEmptyLevels emptyBook := by
    constructor <;> intro pf hpf <;> simp [emptyBook] at hpf
  have hnc : notCrossed emptyBook := by
    unfold notCrossed emptyBook
    simp
  have h := C5_not_crossed_after_ops emptyBook hs hne hnc
  exact ⟨hs, hne, hnc, h.1 _, h.2.1 _, h.2.2 _⟩

end OB

namespace OB

/-- Every order in the bid book after `bidsAdd` is the inserted order or was
there before. -/
theorem bidsAdd_mem_elim (p : Int) (o : Order) (l : List (Int × List Order)) (x : Order)
    (hx : x ∈ ((bidsAdd p o l).map Prod.snd).join) :
    x = o ∨ x ∈ (l.map Prod.snd).join := by
  induction l with
  | nil =>
    simp only [bidsAdd, List.map_cons, List.map_nil, List.join_cons, List.join_nil,
      List.append_nil] at hx
    exact Or.inl (List.mem_singleton.mp hx)
  | cons hd tl ih =>
    obtain ⟨q, fifo⟩ := hd
    by_cases h1 : q < p
    · simp only [bidsAdd, if_pos h1, List.map_cons, List.join_cons, List.mem_append,
        List.mem_singleton] at hx
      rcases hx with h2 | h2
      · exact Or.inl h2
      · right
        simpa [List.map_cons, List.join_cons, List.mem_append] using h2
    · by_cases h2 : p = q
      · simp only [bidsAdd, if_neg h1, if_pos h2, List.map_cons, List.join_cons,
          List.mem_append, List.mem_singleton] at hx
        simp only [List.map_cons, List.join_cons, List.mem_append]
        rcases hx with (h3 | h3) | h3
        · exact Or.inr (Or.inl h3)
        · exact Or.inl h3
        · exact Or.inr (Or.inr h3)
      · simp only [bidsAdd, if_neg h1, if_neg h2, List.map_cons, List.join_cons,
          List.mem_append] at hx
        simp only [List.map_cons, List.join_cons, List.mem_append]
        rcases hx with h3 | h3
        · exact Or.inr (Or.inl h3)
        · rcases ih h3 with h4 | h4
          · exact Or.inl h4
          · exact Or.inr (Or.inr h4)

/-- Every order in the ask book after `asksAdd` is the inserted order or was
there before. -/
theorem asksAdd_mem_elim (p : Int) (o : Order) (l : List (Int × List Order)) (x : Order)
    (hx : x ∈ ((asksAdd p o l).map Prod.snd).join) :
    x = o ∨ x ∈ (l.map Prod.snd).join := by
  induction l with
  | nil =>
    simp only [asksAdd, List.map_cons, List.map_nil, List.join_cons, List.join_nil,
      List.append_nil] at hx
    exact Or.inl (List.mem_singleton.mp hx)
  | cons hd tl ih =>
    obtain ⟨q, fifo⟩ := hd
    by_cases h1 : p < q
    · simp only [asksAdd, if_pos h1, List.map_cons, List.join_cons, List.mem_append,
        List.mem_singleton] at hx
      rcases hx with h2 | h2
      · exact Or.inl h2
      · right
        simpa [List.map_cons, List.join_cons, List.mem_append] using h2
    · by_cases h2 : p = q
      · simp only [asksAdd, if_neg h1, if_pos h2, List.map_cons, List.join_cons,
          List.mem_append, List.mem_singleton] at hx
        simp only [List.map_cons, List.join_cons, List.mem_append]
        rcases hx with (h3 | h3) | h3
        · exact Or.inr (Or.inl h3)
        · exact Or.inl h3
        · exact Or.inr (Or.inr h3)
      · simp only [asksAdd, if_neg h1, if_neg h2, List.map_cons, List.join_cons,
          List.mem_append] at hx
        simp only [List.map_cons, List.join_cons, List.mem_append]
        rcases hx with h3 | h3
        · exact Or.inr (Or.inl h3)
        · rcases ih h3 with h4 | h4
          · exact Or.inl h4
          · exact Or.inr (Or.inr h4)

/-- The outer loop preserves positive remaining quantities and only emits
positive-quantity trades. -/
theorem matchLoop_pos :
    ∀ (fuel : Nat) (b : Book) (acc : List Trade),
      posRemaining b → (∀ t ∈ acc, posTrade t) →
      posRemaining (matchLoop fuel b acc).1 ∧
        (∀ t ∈ (matchLoop fuel b acc).2, posTrade t) := by
  intro fuel
  induction fuel with
  | zero => intro b acc h1 h2; exact ⟨h1, h2⟩
  | succ n ih =>
    intro b acc h1 h2
    obtain ⟨bids, asks, orders, data⟩ := b
    cases bids with
    | nil => rw [matchLoop_bids_nil _ _ _ rfl]; exact ⟨h1, h2⟩
    | cons bhd brest =>
      cases asks with
      | nil => rw [matchLoop_asks_nil _ _ _ rfl]; exact ⟨h1, h2⟩
      | cons ahd arest =>
        obtain ⟨bp, bfifo⟩ := bhd
        obtain ⟨ap, afifo⟩ := ahd
        by_cases hlt : bp < ap
        · rw [matchLoop_break n _ acc bp ap bfifo afifo brest arest rfl rfl hlt]
          exact ⟨h1, h2⟩
        · rw [matchLoop_step n bp ap bfifo afifo brest arest orders data acc hlt]
          simp only []
          have hpos := innerLoopF_pos bp ap (bfifo.length + afifo.length)
            ⟨bfifo, afifo, orders, data, []⟩
            (fun y hy => h1 y (mem_allOrders_of_bfifo bp bfifo brest _ orders data y hy))
            (fun y hy => h1 y (mem_allOrders_of_afifo ap afifo arest _ orders data y hy))
            (by simp)
          apply ih
          · intro x hx
            have hx2 := fakCancelBidTop_allOrders_subset _ _
              (fakCancelAskTop_allOrders_subset _ _ hx)
            simp only [Book.allOrders, List.mem_append] at hx2
            rcases hx2 with h4 | h4
            · by_cases he : (innerLoop bp ap ⟨bfifo, afifo, orders, data, []⟩).bfifo.isEmpty = true <;>
                simp only [he, if_true, Bool.false_eq_true, if_false] at h4
              · exact h1 x (mem_allOrders_of_brest bp bfifo brest _ orders data x h4)
              · simp only [List.map_cons, List.join_cons, List.mem_append] at h4
                rcases h4 with h5 | h5
                · exact hpos.1 x h5
                · exact h1 x (mem_allOrders_of_brest bp bfifo brest _ orders data x h5)
            · by_cases he : (innerLoop bp ap ⟨bfifo, afifo, orders, data, []⟩).afifo.isEmpty = true <;>
                simp only [he, if_true, Bool.false_eq_true, if_false] at h4
              · exact h1 x (mem_allOrders_of_arest ap afifo arest _ orders data x h4)
              · simp only [List.map_cons, List.join_cons, List.mem_append] at h4
                rcases h4 with h5 | h5
                · exact hpos.2.1 x h5
                · exact h1 x (mem_allOrders_of_arest ap afifo arest _ orders data x h5)
          · intro t ht
            rcases List.mem_append.mp ht with h4 | h4
            · exact h2 t h4
            · exact hpos.2.2 t h4

/-- Admitted orders with positive remaining quantity preserve the
positive-remaining invariant and produce only positive-quantity trades. -/
theorem addOrder_pos (o : Order) (b : Book) (hpos : posRemaining b)
    (ho : 0 < o.remainingQuantity) :
    posRemaining (addOrder o b).1 ∧ (∀ t ∈ (addOrder o b).2, posTrade t) := by
  cases h1 : b.orders.contains o.orderId with
  | true => rw [addOrder_eq_dup o b h1]; exact ⟨hpos, by simp⟩
  | false =>
    by_cases h2 : o.orderType = OrderType.FillAndKill ∧ (!canMatch b o.side o.price) = true
    · rw [addOrder_eq_fak_reject o b h1 h2]; exact ⟨hpos, by simp⟩
    · by_cases h3 : o.orderType = OrderType.FillOrKill ∧
          (!canFullyFill b o.side o.price o.initialQuantity) = true
      · rw [addOrder_eq_fok_reject o b h1 h2 h3]; exact ⟨hpos, by simp⟩
      · cases hside : o.side with
        | Buy =>
          rw [addOrder_eq_insert_buy o b hside h1 h2 h3]
          unfold matchOrders
          apply matchLoop_pos
          · intro x hx
            simp only [Book.allOrders, List.mem_append] at hx
            rcases hx with h4 | h4
            · rcases bidsAdd_mem_elim o.price o b.bids x h4 with h5 | h5
              · subst h5; exact ho
              · exact hpos x (by simp only [Book.allOrders, List.mem_append]; exact Or.inl h5)
            · exact hpos x (by simp only [Book.allOrders, List.mem_append]; exact Or.inr h4)
          · simp
        | Sell =>
          rw [addOrder_eq_insert_sell o b hside h1 h2 h3]
          unfold matchOrders
          apply matchLoop_pos
          · intro x hx
            simp only [Book.allOrders, List.mem_append] at hx
            rcases hx with h4 | h4
            · exact hpos x (by simp only [Book.allOrders, List.mem_append]; exact Or.inl h4)
            · rcases asksAdd_mem_elim o.price o b.asks x h4 with h5 | h5
              · subst h5; exact ho
              · exact hpos x (by simp only [Book.allOrders, List.mem_append]; exact Or.inr h5)
          · simp
  
/-- C9: under the precondition that every admitted quantity is positive and
every resting order has positive remaining quantity, no trade returned by
`add_order` or `modify_order` has a zero-quantity leg (the crossing loop
always takes the minimum of two positive head remainders), and the
positive-remaining invariant is preserved. -/
theorem C9_no_zero_quantity_trades (b : Book) (hpos : posRemaining b) :
    (∀ (t : OrderType) (id : Nat) (s : Side) (p : Int) (q : Nat), 0 < q →
      (∀ tr ∈ (addOrder (mkOrder t id s p q) b).2,
        0 < tr.bidTrade.quantity ∧ 0 < tr.askTrade.quantity) ∧
      posRemaining (addOrder (mkOrder t id s p q) b).1) ∧
    (∀ req : OrderModify, 0 < req.quantity →
      ∀ tr ∈ (modifyOrder req b).2,
        0 < tr.bidTrade.quantity ∧ 0 < tr.askTrade.quantity) := by
  constructor
  · intro t id s p q hq
    have h := addOrder_pos (mkOrder t id s p q) b hpos hq
    exact ⟨fun tr htr => h.2 tr htr, h.1⟩
  · intro req hq tr htr
    cases h1 : b.orders.contains req.orderId with
    | false =>
      rw [modifyOrder_eq_not_contains req b h1] at htr
      simp at htr
    | true =>
      cases h2 : b.lookupOrder req.orderId with
      | none =>
        rw [modifyOrder_eq_none req b h1 h2] at htr
        simp at htr
      | some ex =>
        rw [modifyOrder_eq_some req b ex h1 h2] at htr
        have hpos2 : posRemaining (cancelOrder req.orderId b) :=
          fun x hx => hpos x (cancelOrderInternal_allOrders_subset _ _ _ hx)
        exact (addOrder_pos _ _ hpos2 hq).2 tr htr

/-- Witness for C9 at a concrete input. -/
theorem C9_no_zero_quantity_trades_witness :
    posRemaining (addOrder (mkOrder OrderType.GoodTillCancel 9 Side.Sell 100 5) emptyBook).1 ∧
    (0:Nat) < 5 ∧
    (∀ tr ∈ (addOrder (mkOrder OrderType.GoodTillCancel 1 Side.Buy 100 5)
        (addOrder (mkOrder OrderType.GoodTillCancel 9 Side.Sell 100 5) emptyBook).1).2,
      0 < tr.bidTrade.quantity ∧ 0 < tr.askTrade.quantity) := by
  have hpos : posRemaining (addOrder (mkOrder OrderType.GoodTillCancel 9 Side.Sell 100 5)
      emptyBook).1 := by
    unfold posRemaining
    decide
  refine ⟨hpos, by decide, ?_⟩
  exact ((C9_no_zero_quantity_trades _ hpos).1 OrderType.GoodTillCancel 1 Side.Buy 100 5
    (by decide)).1

end OB

namespace OB

/-- Fill-stable properties of the ask queue are preserved by the inner loop
independently of the bid queue (orders never migrate between queues). -/
theorem innerLoopF_pred_ask (bp ap : Int) (P : Order → Prop)
    (hP : ∀ (o : Order) (q : Nat), P o → P (o.fill q)) :
    ∀ (fuel : Nat) (s : MatchState),
      (∀ x ∈ s.afifo, P x) → ∀ x ∈ (innerLoopF fuel bp ap s).afifo, P x := by
  intro fuel
  induction fuel with
  | zero => intro s haf; exact haf
  | succ n ih =>
    intro s haf
    obtain ⟨bf, af, o0, d0, t0⟩ := s
    cases bf with
    | nil => rw [innerLoopF_bfifo_nil _ _ _ _ rfl]; exact haf
    | cons bid brest =>
      cases af with
      | nil => rw [innerLoopF_afifo_nil _ _ _ _ rfl]; exact haf
      | cons ask arest =>
        rw [innerLoopF_cons]
        simp only []
        apply ih
        by_cases ha : (ask.fill (min bid.remainingQuantity ask.remainingQuantity)).isFilled = true <;>
          simp only [ha, if_true, if_false, Bool.false_eq_true, if_neg, not_false_iff]
        · intro x hx; exact haf x (List.mem_cons_of_mem _ hx)
        · intro x hx
          rcases List.mem_cons.mp hx with h | h
          · subst h; exact hP _ _ (haf ask (List.mem_cons_self _ _))
          · exact haf x (List.mem_cons_of_mem _ h)

/-- Fill-stable properties of the bid queue are preserved by the inner loop
independently of the ask queue. -/
theorem innerLoopF_pred_bid (bp ap : Int) (P : Order → Prop)
    (hP : ∀ (o : Order) (q : Nat), P o → P (o.fill q)) :
    ∀ (fuel : Nat) (s : MatchState),
      (∀ x ∈ s.bfifo, P x) → ∀ x ∈ (innerLoopF fuel bp ap s).bfifo, P x := by
  intro fuel
  induction fuel with
  | zero => intro s hbf; exact hbf
  | succ n ih =>
    intro s hbf
    obtain ⟨bf, af, o0, d0, t0⟩ := s
    cases bf with
    | nil => rw [innerLoopF_bfifo_nil _ _ _ _ rfl]; exact hbf
    | cons bid brest =>
      cases af with
      | nil => rw [innerLoopF_afifo_nil _ _ _ _ rfl]; exact hbf
      | cons ask arest =>
        rw [innerLoopF_cons]
        simp only []
        apply ih
        by_cases hb : (bid.fill (min bid.remainingQuantity ask.remainingQuantity)).isFilled = true <;>
          simp only [hb, if_true, if_false, Bool.false_eq_true, if_neg, not_false_iff]
        · intro x hx; exact hbf x (List.mem_cons_of_mem _ hx)
        · intro x hx
          rcases List.mem_cons.mp hx with h | h
          · subst h; exact hP _ _ (hbf bid (List.mem_cons_self _ _))
          · exact hbf x (List.mem_cons_of_mem _ h)

/-- Inserting at a price strictly above the best bid creates a fresh best
level. -/
theorem bidsAdd_prepend (p : Int) (o : Order) (l : List (Int × List Order))
    (h : match l with | [] => True | (q, _) :: _ => q < p) :
    bidsAdd p o l = (p, [o]) :: l := by
  cases l with
  | nil => rfl
  | cons hd tl =>
    obtain ⟨q, fifo⟩ := hd
    simp only [] at h
    simp [bidsAdd, h]

/-- Inserting at a price strictly below the best ask creates a fresh best
level. -/
theorem asksAdd_prepend (p : Int) (o : Order) (l : List (Int × List Order))
    (h : match l with | [] => True | (q, _) :: _ => p < q) :
    asksAdd p o l = (p, [o]) :: l := by
  cases l with
  | nil => rfl
  | cons hd tl =>
    obtain ⟨q, fifo⟩ := hd
    simp only [] at h
    simp [asksAdd, h]

/-- A side book none of whose orders carries the id does not resolve it. -/
theorem levelsFindOrder_none (id : Nat) (l : List (Int × List Order))
    (h : ∀ x ∈ (l.map Prod.snd).join, x.orderId ≠ id) :
    levelsFindOrder id l = none := by
  induction l with
  | nil => rfl
  | cons hd tl ih =>
    obtain ⟨q, fifo⟩ := hd
    have hfifo : fifoFind id fifo = none := by
      clear ih
      induction fifo with
      | nil => rfl
      | cons x xs ih2 =>
        have hx : x.orderId ≠ id := h x (by simp [List.map_cons, List.join_cons])
        simp only [fifoFind, if_neg hx]
        exact ih2 (fun y hy => h y (by
          simp only [List.map_cons, List.join_cons, List.mem_append] at hy ⊢
          rcases hy with h2 | h2
          · exact Or.inl (List.mem_cons_of_mem _ h2)
          · exact Or.inr h2))
    simp only [levelsFindOrder, hfifo]
    exact ih (fun y hy => h y (by
      simp only [List.map_cons, List.join_cons, List.mem_append]
      exact Or.inr hy))

/-- When no bid-side order is FillAndKill, the bid-top sweep is a no-op. -/
theorem fakCancelBidTop_noop (b : Book)
    (h : ∀ x ∈ (b.bids.map Prod.snd).join, x.orderType ≠ OrderType.FillAndKill) :
    fakCancelBidTop b = b := by
  cases hb : b.bids with
  | nil => exact fakCancelBidTop_eq_nil b hb
  | cons hd tl =>
    obtain ⟨q, fifo⟩ := hd
    cases hf : fifo with
    | nil => exact fakCancelBidTop_eq_empty b q tl (hf ▸ hb)
    | cons ord rest =>
      rw [fakCancelBidTop_eq_cons b q ord rest tl (hf ▸ hb)]
      rw [if_neg (h ord (by rw [hb, hf]; simp [List.map_cons, List.join_cons]))]

/-- When no ask-side order is FillAndKill, the ask-top sweep is a no-op. -/
theorem fakCancelAskTop_noop (b : Book)
    (h : ∀ x ∈ (b.asks.map Prod.snd).join, x.orderType ≠ OrderType.FillAndKill) :
    fakCancelAskTop b = b := by
  cases hb : b.asks with
  | nil => exact fakCancelAskTop_eq_nil b hb
  | cons hd tl =>
    obtain ⟨q, fifo⟩ := hd
    cases hf : fifo with
    | nil => exact fakCancelAskTop_eq_empty b q tl (hf ▸ hb)
    | cons ord rest =>
      rw [fakCancelAskTop_eq_cons b q ord rest tl (hf ▸ hb)]
      rw [if_neg (h ord (by rw [hb, hf]; simp [List.map_cons, List.join_cons]))]

end OB

namespace OB

/-- Running the inner loop with a single order in the bid queue: either the
order is fully filled and popped, or the ask queue is depleted first and the
order survives at the front of the bid queue with a non-zero remainder,
still registered in the id index. -/
theorem innerLoopF_singleton_bid (bp ap : Int) :
    ∀ (fuel : Nat) (o : Order) (afifo : List Order) (orders : List Nat)
      (data : List (Int × LevelData)) (trades : List Trade),
      afifo.length + 1 ≤ fuel →
      (∀ y ∈ afifo, y.orderId ≠ o.orderId) →
      o.orderId ∈ orders →
      (afifo = [] → o.remainingQuantity ≠ 0) →
      ((innerLoopF fuel bp ap ⟨[o], afifo, orders, data, trades⟩).bfifo = [] ∨
       ((innerLoopF fuel bp ap ⟨[o], afifo, orders, data, trades⟩).afifo = [] ∧
        (∃ k, k ≠ 0 ∧
          (innerLoopF fuel bp ap ⟨[o], afifo, orders, data, trades⟩).bfifo =
            [⟨o.orderType, o.orderId, o.side, o.price, o.initialQuantity, k⟩]) ∧
        o.orderId ∈ (innerLoopF fuel bp ap ⟨[o], afifo, orders, data, trades⟩).orders)) := by
  intro fuel
  induction fuel with
  | zero => intro o afifo orders data trades hlen _ _ _; omega
  | succ n ih =>
    intro o afifo orders data trades hlen hfresh hmem ho
    cases afifo with
    | nil =>
      rw [innerLoopF_afifo_nil _ _ _ _ rfl]
      right
      exact ⟨rfl, ⟨o.remainingQuantity, ho rfl, rfl⟩, hmem⟩
    | cons ask arest =>
      rw [innerLoopF_cons]
      simp only []
      by_cases hb : (o.fill (min o.remainingQuantity ask.remainingQuantity)).isFilled = true
      · left
        simp only [hb, if_true]
        rw [innerLoopF_bfifo_nil n bp ap _ rfl]
      · have ha : (ask.fill (min o.remainingQuantity ask.remainingQuantity)).isFilled = true := by
          rcases fill_min_filled o ask with h | h
          · exact absurd h hb
          · exact h
        simp only [hb, ha, if_true, Bool.false_eq_true, if_false]
        have hrem : (o.fill (min o.remainingQuantity ask.remainingQuantity)).remainingQuantity ≠ 0 := by
          simpa [Order.isFilled] using hb
        have haskid : (ask.fill (min o.remainingQuantity ask.remainingQuantity)).orderId ≠
            o.orderId := hfresh ask (List.mem_cons_self _ _)
        exact ih (o.fill (min o.remainingQuantity ask.remainingQuantity)) arest
          (orders.erase (ask.fill (min o.remainingQuantity ask.remainingQuantity)).orderId)
          _ _
          (by simp only [List.length_cons] at hlen; omega)
          (fun y hy => hfresh y (List.mem_cons_of_mem _ hy))
          ((List.mem_erase_of_ne haskid.symm).mpr hmem)
          (fun _ => hrem)

/-- Running the inner loop with a single order in the ask queue: either the
order is fully filled and popped, or the bid queue is depleted first and the
order survives at the front of the ask queue with a non-zero remainder,
still registered in the id index. -/
theorem innerLoopF_singleton_ask (bp ap : Int) :
    ∀ (fuel : Nat) (o : Order) (bfifo : List Order) (orders : List Nat)
      (data : List (Int × LevelData)) (trades : List Trade),
      bfifo.length + 1 ≤ fuel →
      (∀ y ∈ bfifo, y.orderId ≠ o.orderId) →
      o.orderId ∈ orders →
      (bfifo = [] → o.remainingQuantity ≠ 0) →
      ((innerLoopF fuel bp ap ⟨bfifo, [o], orders, data, trades⟩).afifo = [] ∨
       ((innerLoopF fuel bp ap ⟨bfifo, [o], orders, data, trades⟩).bfifo = [] ∧
        (∃ k, k ≠ 0 ∧
          (innerLoopF fuel bp ap ⟨bfifo, [o], orders, data, trades⟩).afifo =
            [⟨o.orderType, o.orderId, o.side, o.price, o.initialQuantity, k⟩]) ∧
        o.orderId ∈ (innerLoopF fuel bp ap ⟨bfifo, [o], orders, data, trades⟩).orders)) := by
  intro fuel
  induction fuel with
  | zero => intro o bfifo orders data trades hlen _ _ _; omega
  | succ n ih =>
    intro o bfifo orders data trades hlen hfresh hmem ho
    cases bfifo with
    | nil =>
      rw [innerLoopF_bfifo_nil _ _ _ _ rfl]
      right
      exact ⟨rfl, ⟨o.remainingQuantity, ho rfl, rfl⟩, hmem⟩
    | cons bid brest =>
      rw [innerLoopF_cons]
      simp only []
      by_cases ha : (o.fill (min bid.remainingQuantity o.remainingQuantity)).isFilled = true
      · left
        simp only [ha, if_true]
        rw [innerLoopF_afifo_nil n bp ap _ rfl]
      · have hb : (bid.fill (min bid.remainingQuantity o.remainingQuantity)).isFilled = true := by
          rcases fill_min_filled bid o with h | h
          · exact h
          · exact absurd h ha
        simp only [hb, ha, if_true, Bool.false_eq_true, if_false]
        have hrem : (o.fill (min bid.remainingQuantity o.remainingQuantity)).remainingQuantity ≠ 0 := by
          simpa [Order.isFilled] using ha
        have hbidid : (bid.fill (min bid.remainingQuantity o.remainingQuantity)).orderId ≠
            o.orderId := hfresh bid (List.mem_cons_self _ _)
        exact ih (o.fill (min bid.remainingQuantity o.remainingQuantity)) brest
          (orders.erase (bid.fill (min bid.remainingQuantity o.remainingQuantity)).orderId)
          _ _
          (by simp only [List.length_cons] at hlen; omega)
          (fun y hy => hfresh y (List.mem_cons_of_mem _ hy))
          ((List.mem_erase_of_ne hbidid.symm).mpr hmem)
          (fun _ => hrem)

end OB

namespace OB

/-- Helper: membership in a joined side book through its head level. -/
theorem mem_join_head (q : Int) (f : List Order) (tl : List (Int × List Order)) (x : Order)
    (hx : x ∈ f) : x ∈ ((((q, f) :: tl)).map Prod.snd).join := by
  simp only [List.map_cons, List.join_cons, List.mem_append]
  exact Or.inl hx

/-- Helper: membership in a joined side book through its tail levels. -/
theorem mem_join_tail (q : Int) (f : List Order) (tl : List (Int × List Order)) (x : Order)
    (hx : x ∈ (tl.map Prod.snd).join) : x ∈ ((((q, f) :: tl)).map Prod.snd).join := by
  simp only [List.map_cons, List.join_cons, List.mem_append]
  exact Or.inr hx

/-- Helper: `allOrders` membership from the bid side. -/
theorem mem_allOrders_bids (b : Book) (x : Order) (hx : x ∈ (b.bids.map Prod.snd).join) :
    x ∈ b.allOrders := List.mem_append.mpr (Or.inl hx)

/-- Helper: `allOrders` membership from the ask side. -/
theorem mem_allOrders_asks (b : Book) (x : Order) (hx : x ∈ (b.asks.map Prod.snd).join) :
    x ∈ b.allOrders := List.mem_append.mpr (Or.inr hx)

/-- Helper: `allOrders` of a four-field book literal splits into the two
joined sides. -/
theorem allOrders_mk_elim (bids asks : List (Int × List Order)) (orders : List Nat)
    (data : List (Int × LevelData)) (x : Order)
    (hx : x ∈ (Book.mk bids asks orders data).allOrders) :
    x ∈ (bids.map Prod.snd).join ∨ x ∈ (asks.map Prod.snd).join := List.mem_append.mp hx

end OB

namespace OB

/-- C2: `add_order` never leaves a FillAndKill order resting.  On a
well-formed book with no resting FillAndKill orders (no empty levels, not
crossed, all resting ids distinct from the incoming id), the book returned
by `add_order` again has no resting FillAndKill order: an admitted
FillAndKill becomes the sole order of a fresh best level, and after the
first inner pass it is either fully filled (and popped) or sits at the top
of its side, where the top-of-book FillAndKill sweep cancels it. -/
theorem C2_fak_never_rests (o : Order) (b : Book) (hne : noEmptyLevels b)
    (hnc : notCrossed b) (hnf : noRestingFaK b)
    (hfresh : ∀ y ∈ b.allOrders, y.orderId ≠ o.orderId) :
    noRestingFaK (addOrder o b).1 := by
  cases h1 : b.orders.contains o.orderId with
  | true => rw [addOrder_eq_dup o b h1]; exact hnf
  | false =>
    by_cases h2 : o.orderType = OrderType.FillAndKill ∧ (!canMatch b o.side o.price) = true
    · rw [addOrder_eq_fak_reject o b h1 h2]; exact hnf
    · by_cases h3 : o.orderType = OrderType.FillOrKill ∧
          (!canFullyFill b o.side o.price o.initialQuantity) = true
      · rw [addOrder_eq_fok_reject o b h1 h2 h3]; exact hnf
      · by_cases hT : o.orderType = OrderType.FillAndKill
        · -- the FillAndKill gate passed, so the order crosses the opposing best
          have hcm : canMatch b o.side o.price = true := by
            cases hc : canMatch b o.side o.price with
            | true => rfl
            | false => exact absurd ⟨hT, by rw [hc]; rfl⟩ h2
          cases hside : o.side with
          | Buy =>
            obtain ⟨ap0, af0, arest, hasks, hap0⟩ :
                ∃ ap0 af0 arest, b.asks = (ap0, af0) :: arest ∧ ap0 ≤ o.price := by
              unfold canMatch at hcm
              rw [hside] at hcm
              cases ha : b.asks with
              | nil => rw [ha] at hcm; simp at hcm
              | cons hd tl =>
                obtain ⟨q, f⟩ := hd
                rw [ha] at hcm
                exact ⟨q, f, tl, rfl, by simpa using hcm⟩
            have hbidhead : match b.bids with | [] => True | (q, _) :: _ => q < o.price := by
              cases hb : b.bids with
              | nil => trivial
              | cons bhd btl =>
                obtain ⟨bq, bf⟩ := bhd
                unfold notCrossed at hnc
                rw [hb, hasks] at hnc
                simp only [] at hnc
                simp only []
                omega
            rw [addOrder_eq_insert_buy o b hside h1 h2 h3,
              bidsAdd_prepend o.price o b.bids hbidhead, hasks]
            unfold matchOrders
            have hstep : matchLoop
                (totalOrders ⟨(o.price, [o]) :: b.bids, (ap0, af0) :: arest,
                  o.orderId :: b.orders,
                  updateLevelData o.price o.initialQuantity LDAction.Add b.data⟩ + 1)
                ⟨(o.price, [o]) :: b.bids, (ap0, af0) :: arest, o.orderId :: b.orders,
                  updateLevelData o.price o.initialQuantity LDAction.Add b.data⟩ [] =
                (let s := innerLoop o.price ap0 ⟨[o], af0, o.orderId :: b.orders,
                    updateLevelData o.price o.initialQuantity LDAction.Add b.data, []⟩
                 let bids1 := if s.bfifo.isEmpty then b.bids else (o.price, s.bfifo) :: b.bids
                 let asks1 := if s.afifo.isEmpty then arest else (ap0, s.afifo) :: arest
                 matchLoop (totalOrders ⟨(o.price, [o]) :: b.bids, (ap0, af0) :: arest,
                     o.orderId :: b.orders,
                     updateLevelData o.price o.initialQuantity LDAction.Add b.data⟩)
                   (fakCancelAskTop (fakCancelBidTop ⟨bids1, asks1, s.orders, s.data⟩))
                   ([] ++ s.trades)) :=
              matchLoop_step _ o.price ap0 [o] af0 b.bids arest _ _ [] (not_lt.mpr hap0)
            rw [hstep]
            simp only []
            apply matchLoop_noFaK
            have haf0ne : af0 ≠ [] :=
              hne.2 (ap0, af0) (by rw [hasks]; exact List.mem_cons_self _ _)
            have hsing := innerLoopF_singleton_bid o.price ap0
              ((1 : Nat) + af0.length) o af0 (o.orderId :: b.orders)
              (updateLevelData o.price o.initialQuantity LDAction.Add b.data) []
              (by omega)
              (fun y hy => hfresh y (mem_allOrders_asks b y (by
                rw [hasks]; exact mem_join_head _ _ _ _ hy)))
              (List.mem_cons_self _ _)
              (fun h => absurd h haf0ne)
            have hsEq : innerLoop o.price ap0 ⟨[o], af0, o.orderId :: b.orders,
                updateLevelData o.price o.initialQuantity LDAction.Add b.data, []⟩ =
                innerLoopF ((1 : Nat) + af0.length) o.price ap0 ⟨[o], af0,
                  o.orderId :: b.orders,
                  updateLevelData o.price o.initialQuantity LDAction.Add b.data, []⟩ := rfl
            rw [← hsEq] at hsing
            have hafok : ∀ x ∈ (innerLoop o.price ap0 ⟨[o], af0, o.orderId :: b.orders,
                updateLevelData o.price o.initialQuantity LDAction.Add b.data, []⟩).afifo,
                x.orderType ≠ OrderType.FillAndKill := by
              intro x hx
              refine innerLoopF_pred_ask o.price ap0 (fun y => y.orderType ≠ OrderType.FillAndKill)
                (fun y q hy => hy) ((1 : Nat) + af0.length) ⟨[o], af0, o.orderId :: b.orders,
                  updateLevelData o.price o.initialQuantity LDAction.Add b.data, []⟩
                ?_ x (hsEq ▸ hx)
              intro y hy
              exact hnf y (mem_allOrders_asks b y (by rw [hasks]; exact mem_join_head _ _ _ _ hy))
            rcases hsing with hL | ⟨hA, ⟨k, hk, hbf⟩, hidmem⟩
            · -- the FillAndKill was fully filled and popped
              rw [hL]
              simp only [List.isEmpty_nil, if_true]
              intro x hx
              have hx2 := fakCancelBidTop_allOrders_subset _ _
                (fakCancelAskTop_allOrders_subset _ _ hx)
              rcases allOrders_mk_elim _ _ _ _ _ hx2 with h4 | h4
              · exact hnf x (mem_allOrders_bids b x h4)
              · by_cases he : (innerLoop o.price ap0 ⟨[o], af0, o.orderId :: b.orders,
                    updateLevelData o.price o.initialQuantity LDAction.Add b.data,
                    []⟩).afifo.isEmpty = true <;>
                  simp only [he, if_true, Bool.false_eq_true, if_false] at h4
                · exact hnf x (mem_allOrders_asks b x (by rw [hasks]; exact mem_join_tail _ _ _ _ h4))
                · simp only [List.map_cons, List.join_cons, List.mem_append] at h4
                  rcases h4 with h5 | h5
                  · exact hafok x h5
                  · exact hnf x (mem_allOrders_asks b x (by
                      rw [hasks]; exact mem_join_tail _ _ _ _ h5))
            · -- the FillAndKill survived at the top of the bids: the sweep cancels it
              rw [hA, hbf]
              simp only [List.isEmpty_nil, if_true, List.isEmpty_cons, Bool.false_eq_true,
                if_false]
              have hcont : ((innerLoop o.price ap0 ⟨[o], af0, o.orderId :: b.orders,
                  updateLevelData o.price o.initialQuantity LDAction.Add b.data,
                  []⟩).orders).contains o.orderId = true :=
                List.elem_eq_true_of_mem hidmem
              have hbid1 :
                  (Book.mk ((o.price, [(⟨o.orderType, o.orderId, o.side, o.price,
                      o.initialQuantity, k⟩ : Order)]) :: b.bids) arest
                    ((innerLoop o.price ap0 ⟨[o], af0, o.orderId :: b.orders,
                      updateLevelData o.price o.initialQuantity LDAction.Add b.data, []⟩).orders)
                    ((innerLoop o.price ap0 ⟨[o], af0, o.orderId :: b.orders,
                      updateLevelData o.price o.initialQuantity LDAction.Add b.data,
                      []⟩).data)).lookupOrder o.orderId =
                  some ⟨o.orderType, o.orderId, o.side, o.price, o.initialQuantity, k⟩ := by
                unfold Book.lookupOrder
                simp [levelsFindOrder, fifoFind]
              rw [fakCancelBidTop_eq_cons _ o.price
                ⟨o.orderType, o.orderId, o.side, o.price, o.initialQuantity, k⟩ [] b.bids rfl]
              rw [if_pos (show (⟨o.orderType, o.orderId, o.side, o.price, o.initialQuantity,
                k⟩ : Order).orderType = OrderType.FillAndKill from hT)]
              rw [cancelOrderInternal_eq_buy o.orderId _
                ⟨o.orderType, o.orderId, o.side, o.price, o.initialQuantity, k⟩
                hcont hbid1 hside]
              simp only [levelsEraseOrder, fifoErase, if_pos rfl, List.isEmpty_nil, if_true]
              intro x hx
              have hx2 := fakCancelAskTop_allOrders_subset _ _ hx
              rcases allOrders_mk_elim _ _ _ _ _ hx2 with h4 | h4
              · exact hnf x (mem_allOrders_bids b x h4)
              · exact hnf x (mem_allOrders_asks b x (by
                  rw [hasks]; exact mem_join_tail _ _ _ _ h4))
          | Sell =>
            obtain ⟨bp0, bf0, brest, hbids, hbp0⟩ :
                ∃ bp0 bf0 brest, b.bids = (bp0, bf0) :: brest ∧ o.price ≤ bp0 := by
              unfold canMatch at hcm
              rw [hside] at hcm
              cases hb : b.bids with
              | nil => rw [hb] at hcm; simp at hcm
              | cons hd tl =>
                obtain ⟨q, f⟩ := hd
                rw [hb] at hcm
                exact ⟨q, f, tl, rfl, by simpa using hcm⟩
            have haskhead : match b.asks with | [] => True | (q, _) :: _ => o.price < q := by
              cases ha : b.asks with
              | nil => trivial
              | cons ahd atl =>
                obtain ⟨aq, af⟩ := ahd
                unfold notCrossed at hnc
                rw [hbids, ha] at hnc
                simp only [] at hnc
                simp only []
                omega
            rw [addOrder_eq_insert_sell o b hside h1 h2 h3,
              asksAdd_prepend o.price o b.asks haskhead, hbids]
            unfold matchOrders
            have hstep : matchLoop
                (totalOrders ⟨(bp0, bf0) :: brest, (o.price, [o]) :: b.asks,
                  o.orderId :: b.orders,
                  updateLevelData o.price o.initialQuantity LDAction.Add b.data⟩ + 1)
                ⟨(bp0, bf0) :: brest, (o.price, [o]) :: b.asks, o.orderId :: b.orders,
                  updateLevelData o.price o.initialQuantity LDAction.Add b.data⟩ [] =
                (let s := innerLoop bp0 o.price ⟨bf0, [o], o.orderId :: b.orders,
                    updateLevelData o.price o.initialQuantity LDAction.Add b.data, []⟩
                 let bids1 := if s.bfifo.isEmpty then brest else (bp0, s.bfifo) :: brest
                 let asks1 := if s.afifo.isEmpty then b.asks else (o.price, s.afifo) :: b.asks
                 matchLoop (totalOrders ⟨(bp0, bf0) :: brest, (o.price, [o]) :: b.asks,
                     o.orderId :: b.orders,
                     updateLevelData o.price o.initialQuantity LDAction.Add b.data⟩)
                   (fakCancelAskTop (fakCancelBidTop ⟨bids1, asks1, s.orders, s.data⟩))
                   ([] ++ s.trades)) :=
              matchLoop_step _ bp0 o.price bf0 [o] brest b.asks _ _ [] (not_lt.mpr hbp0)
            rw [hstep]
            simp only []
            apply matchLoop_noFaK
            have hbf0ne : bf0 ≠ [] :=
              hne.1 (bp0, bf0) (by rw [hbids]; exact List.mem_cons_self _ _)
            have hsing := innerLoopF_singleton_ask bp0 o.price
              (bf0.length + (1 : Nat)) o bf0 (o.orderId :: b.orders)
              (updateLevelData o.price o.initialQuantity LDAction.Add b.data) []
              (by omega)
              (fun y hy => hfresh y (mem_allOrders_bids b y (by
                rw [hbids]; exact mem_join_head _ _ _ _ hy)))
              (List.mem_cons_self _ _)
              (fun h => absurd h hbf0ne)
            have hsEq : innerLoop bp0 o.price ⟨bf0, [o], o.orderId :: b.orders,
                updateLevelData o.price o.initialQuantity LDAction.Add b.data, []⟩ =
                innerLoopF (bf0.length + (1 : Nat)) bp0 o.price ⟨bf0, [o],
                  o.orderId :: b.orders,
                  updateLevelData o.price o.initialQuantity LDAction.Add b.data, []⟩ := rfl
            rw [← hsEq] at hsing
            have hbfok : ∀ x ∈ (innerLoop bp0 o.price ⟨bf0, [o], o.orderId :: b.orders,
                updateLevelData o.price o.initialQuantity LDAction.Add b.data, []⟩).bfifo,
                x.orderType ≠ OrderType.FillAndKill := by
              intro x hx
              refine innerLoopF_pred_bid bp0 o.price (fun y => y.orderType ≠ OrderType.FillAndKill)
                (fun y q hy => hy) (bf0.length + (1 : Nat)) ⟨bf0, [o], o.orderId :: b.orders,
                  updateLevelData o.price o.initialQuantity LDAction.Add b.data, []⟩
                ?_ x (hsEq ▸ hx)
              intro y hy
              exact hnf y (mem_allOrders_bids b y (by rw [hbids]; exact mem_join_head _ _ _ _ hy))
            rcases hsing with hL | ⟨hA, ⟨k, hk, haf⟩, hidmem⟩
            · -- the FillAndKill was fully filled and popped
              rw [hL]
              simp only [List.isEmpty_nil, if_true]
              intro x hx
              have hx2 := fakCancelBidTop_allOrders_subset _ _
                (fakCancelAskTop_allOrders_subset _ _ hx)
              rcases allOrders_mk_elim _ _ _ _ _ hx2 with h4 | h4
              · by_cases he : (innerLoop bp0 o.price ⟨bf0, [o], o.orderId :: b.orders,
                    updateLevelData o.price o.initialQuantity LDAction.Add b.data,
                    []⟩).bfifo.isEmpty = true <;>
                  simp only [he, if_true, Bool.false_eq_true, if_false] at h4
                · exact hnf x (mem_allOrders_bids b x (by rw [hbids]; exact mem_join_tail _ _ _ _ h4))
                · simp only [List.map_cons, List.join_cons, List.mem_append] at h4
                  rcases h4 with h5 | h5
                  · exact hbfok x h5
                  · exact hnf x (mem_allOrders_bids b x (by
                      rw [hbids]; exact mem_join_tail _ _ _ _ h5))
              · exact hnf x (mem_allOrders_asks b x h4)
            · -- the FillAndKill survived at the top of the asks: the sweep cancels it
              rw [hA, haf]
              simp only [List.isEmpty_nil, if_true, List.isEmpty_cons, Bool.false_eq_true,
                if_false]
              have hbrestok : ∀ x ∈ (brest.map Prod.snd).join, x.orderType ≠
                  OrderType.FillAndKill := fun x hx =>
                hnf x (mem_allOrders_bids b x (by rw [hbids]; exact mem_join_tail _ _ _ _ hx))
              rw [fakCancelBidTop_noop _ hbrestok]
              have hcont : ((innerLoop bp0 o.price ⟨bf0, [o], o.orderId :: b.orders,
                  updateLevelData o.price o.initialQuantity LDAction.Add b.data,
                  []⟩).orders).contains o.orderId = true :=
                List.elem_eq_true_of_mem hidmem
              have hlook :
                  (Book.mk brest ((o.price, [(⟨o.orderType, o.orderId, o.side, o.price,
                      o.initialQuantity, k⟩ : Order)]) :: b.asks)
                    ((innerLoop bp0 o.price ⟨bf0, [o], o.orderId :: b.orders,
                      updateLevelData o.price o.initialQuantity LDAction.Add b.data, []⟩).orders)
                    ((innerLoop bp0 o.price ⟨bf0, [o], o.orderId :: b.orders,
                      updateLevelData o.price o.initialQuantity LDAction.Add b.data,
                      []⟩).data)).lookupOrder o.orderId =
                  some ⟨o.orderType, o.orderId, o.side, o.price, o.initialQuantity, k⟩ := by
                unfold Book.lookupOrder
                rw [levelsFindOrder_none o.orderId brest (fun y hy => hfresh y
                  (mem_allOrders_bids b y (by rw [hbids]; exact mem_join_tail _ _ _ _ hy)))]
                simp [levelsFindOrder, fifoFind]
              rw [fakCancelAskTop_eq_cons _ o.price
                ⟨o.orderType, o.orderId, o.side, o.price, o.initialQuantity, k⟩ [] b.asks rfl]
              rw [if_pos (show (⟨o.orderType, o.orderId, o.side, o.price, o.initialQuantity,
                k⟩ : Order).orderType = OrderType.FillAndKill from hT)]
              rw [cancelOrderInternal_eq_sell o.orderId _
                ⟨o.orderType, o.orderId, o.side, o.price, o.initialQuantity, k⟩
                hcont hlook hside]
              simp only [levelsEraseOrder, fifoErase, if_pos rfl, List.isEmpty_nil, if_true]
              intro x hx
              rcases allOrders_mk_elim _ _ _ _ _ hx with h4 | h4
              · exact hbrestok x h4
              · exact hnf x (mem_allOrders_asks b x h4)
        · -- not a FillAndKill: insertion adds only a non-FillAndKill order
          cases hside : o.side with
          | Buy =>
            rw [addOrder_eq_insert_buy o b hside h1 h2 h3]
            unfold matchOrders
            apply matchLoop_noFaK
            intro x hx
            rcases allOrders_mk_elim _ _ _ _ _ hx with h4 | h4
            · rcases bidsAdd_mem_elim o.price o b.bids x h4 with h5 | h5
              · subst h5; exact hT
              · exact hnf x (mem_allOrders_bids b x h5)
            · exact hnf x (mem_allOrders_asks b x h4)
          | Sell =>
            rw [addOrder_eq_insert_sell o b hside h1 h2 h3]
            unfold matchOrders
            apply matchLoop_noFaK
            intro x hx
            rcases allOrders_mk_elim _ _ _ _ _ hx with h4 | h4
            · exact hnf x (mem_allOrders_bids b x h4)
            · rcases asksAdd_mem_elim o.price o b.asks x h4 with h5 | h5
              · subst h5; exact hT
              · exact hnf x (mem_allOrders_asks b x h5)

end OB

namespace OB

/-- Witness for C2 at a concrete input: one resting ask `GTC 9 Sell 100 5`
and an incoming `FillAndKill 1 Buy 100 5`. -/
theorem C2_fak_never_rests_witness :
    noEmptyLevels (addOrder (mkOrder OrderType.GoodTillCancel 9 Side.Sell 100 5) emptyBook).1 ∧
    notCrossed (addOrder (mkOrder OrderType.GoodTillCancel 9 Side.Sell 100 5) emptyBook).1 ∧
    noRestingFaK (addOrder (mkOrder OrderType.GoodTillCancel 9 Side.Sell 100 5) emptyBook).1 ∧
    noRestingFaK (addOrder (mkOrder OrderType.FillAndKill 1 Side.Buy 100 5)
      (addOrder (mkOrder OrderType.GoodTillCancel 9 Side.Sell 100 5) emptyBook).1).1 := by
  have hne : noEmptyLevels (addOrder (mkOrder OrderType.GoodTillCancel 9 Side.Sell 100 5)
      emptyBook).1 := by
    unfold noEmptyLevels
    decide
  have hnc : notCrossed (addOrder (mkOrder OrderType.GoodTillCancel 9 Side.Sell 100 5)
      emptyBook).1 := by
    unfold notCrossed
    trivial
  have hnf : noRestingFaK (addOrder (mkOrder OrderType.GoodTillCancel 9 Side.Sell 100 5)
      emptyBook).1 := by
    unfold noRestingFaK
    decide
  have hfresh : ∀ y ∈ ((addOrder (mkOrder OrderType.GoodTillCancel 9 Side.Sell 100 5)
      emptyBook).1).allOrders,
      y.orderId ≠ (mkOrder OrderType.FillAndKill 1 Side.Buy 100 5).orderId := by
    decide
  exact ⟨hne, hnc, hnf, C2_fak_never_rests (mkOrder OrderType.FillAndKill 1 Side.Buy 100 5)
    _ hne hnc hnf hfresh⟩

end OB

namespace OB

/-- A price absent from every level is not found. -/
theorem levelsFind_eq_none (p : Int) (l : List (Int × List Order))
    (h : ∀ x ∈ l, x.1 ≠ p) : levelsFind p l = none := by
  induction l with
  | nil => rfl
  | cons hd tl ih =>
    obtain ⟨q, f⟩ := hd
    have hq : ¬(p = q) := fun hpq => h (q, f) (List.mem_cons_self _ _) (by simpa using hpq.symm)
    simp only [levelsFind, if_neg hq]
    exact ih (fun x hx => h x (List.mem_cons_of_mem _ hx))

/-- On a descending-sorted bid book, `bidsAdd` appends the new order at the
tail of the queue at its price (creating the level if absent). -/
theorem bidsAdd_find (p : Int) (o : Order) (l : List (Int × List Order))
    (hs : l.Pairwise fun x y => y.1 < x.1) :
    levelsFind p (bidsAdd p o l) = some ((levelsFind p l).getD [] ++ [o]) := by
  induction l with
  | nil => simp [bidsAdd, levelsFind]
  | cons hd tl ih =>
    obtain ⟨q, f⟩ := hd
    rcases List.pairwise_cons.mp hs with ⟨hhead, htl⟩
    by_cases h1 : q < p
    · have hfind : levelsFind p ((q, f) :: tl) = none := by
        apply levelsFind_eq_none
        intro x hx
        rcases List.mem_cons.mp hx with h2 | h2
        · subst h2; simp only []; omega
        · have := hhead x h2
          omega
      simp only [bidsAdd, if_pos h1]
      rw [hfind]
      simp [levelsFind]
    · by_cases h2 : p = q
      · simp only [bidsAdd, if_neg h1, if_pos h2, levelsFind, if_pos h2]
        rfl
      · simp only [bidsAdd, if_neg h1, if_neg h2, levelsFind, if_neg h2]
        exact ih htl

/-- On an ascending-sorted ask book, `asksAdd` appends the new order at the
tail of the queue at its price (creating the level if absent). -/
theorem asksAdd_find (p : Int) (o : Order) (l : List (Int × List Order))
    (hs : l.Pairwise fun x y => x.1 < y.1) :
    levelsFind p (asksAdd p o l) = some ((levelsFind p l).getD [] ++ [o]) := by
  induction l with
  | nil => simp [asksAdd, levelsFind]
  | cons hd tl ih =>
    obtain ⟨q, f⟩ := hd
    rcases List.pairwise_cons.mp hs with ⟨hhead, htl⟩
    by_cases h1 : p < q
    · have hfind : levelsFind p ((q, f) :: tl) = none := by
        apply levelsFind_eq_none
        intro x hx
        rcases List.mem_cons.mp hx with h2 | h2
        · subst h2; simp only []; omega
        · have := hhead x h2
          omega
      simp only [asksAdd, if_pos h1]
      rw [hfind]
      simp [levelsFind]
    · by_cases h2 : p = q
      · simp only [asksAdd, if_neg h1, if_pos h2, levelsFind, if_pos h2]
        rfl
      · simp only [asksAdd, if_neg h1, if_neg h2, levelsFind, if_neg h2]
        exact ih htl

/-- If the crossing loop emits no trades, it did not run: the book is
returned unchanged. -/
theorem matchOrders_no_trades (b : Book) (hne : noEmptyLevels b)
    (h : (matchOrders b).2 = []) : matchOrders b = (b, []) := by
  unfold matchOrders at h ⊢
  obtain ⟨bids, asks, orders, data⟩ := b
  cases bids with
  | nil => rw [matchLoop_bids_nil _ _ _ rfl]
  | cons bhd brest =>
    cases asks with
    | nil => rw [matchLoop_asks_nil _ _ _ rfl]
    | cons ahd arest =>
      obtain ⟨bp, bfifo⟩ := bhd
      obtain ⟨ap, afifo⟩ := ahd
      by_cases hlt : bp < ap
      · rw [matchLoop_break _ _ _ bp ap bfifo afifo brest arest rfl rfl hlt]
      · exfalso
        cases hbf : bfifo with
        | nil => exact absurd (hne.1 (bp, bfifo) (List.mem_cons_self _ _)) (by simp [hbf])
        | cons bo brest2 =>
          cases haf : afifo with
          | nil => exact absurd (hne.2 (ap, afifo) (List.mem_cons_self _ _)) (by simp [haf])
          | cons ao arest2 =>
            subst hbf
            subst haf
            have hstep := matchLoop_step
              (totalOrders ⟨(bp, bo :: brest2) :: brest, (ap, ao :: arest2) :: arest, orders,
                data⟩)
              bp ap (bo :: brest2) (ao :: arest2) brest arest orders data [] hlt
            rw [hstep] at h
            simp only [] at h
            obtain ⟨tl, htl⟩ := matchLoop_trades_mono
              (totalOrders ⟨(bp, bo :: brest2) :: brest, (ap, ao :: arest2) :: arest, orders,
                data⟩) _
              ([] ++ (innerLoop bp ap ⟨bo :: brest2, ao :: arest2, orders, data, []⟩).trades)
            rw [htl] at h
            have hemit : (0 : Nat) <
                (innerLoop bp ap ⟨bo :: brest2, ao :: arest2, orders, data, []⟩).trades.length := by
              have := innerLoopF_cons_emits bp ap ((brest2.length + 1) + arest2.length)
                bo brest2 ao arest2 orders data []
              simpa using this
            rw [List.nil_append] at h
            have : (innerLoop bp ap ⟨bo :: brest2, ao :: arest2, orders, data, []⟩).trades ++ tl
                = [] := h
            have hlen := congrArg List.length this
            simp only [List.length_append, List.length_nil] at hlen
            omega

/-- The keys of `levelsEraseOrder` come from the original side book. -/
theorem levelsEraseOrder_keys (p : Int) (id : Nat) (l : List (Int × List Order)) :
    ∀ y ∈ levelsEraseOrder p id l, ∃ z ∈ l, z.1 = y.1 := by
  induction l with
  | nil => simp [levelsEraseOrder]
  | cons hd tl ih =>
    obtain ⟨q, f⟩ := hd
    intro y hy
    by_cases h1 : p = q
    · simp only [levelsEraseOrder, if_pos h1] at hy
      by_cases h2 : (fifoErase id f).isEmpty = true
      · simp only [h2, if_true] at hy
        exact ⟨y, List.mem_cons_of_mem _ hy, rfl⟩
      · simp only [h2, Bool.false_eq_true, if_false] at hy
        rcases List.mem_cons.mp hy with h3 | h3
        · subst h3; exact ⟨(q, f), List.mem_cons_self _ _, rfl⟩
        · exact ⟨y, List.mem_cons_of_mem _ h3, rfl⟩
    · simp only [levelsEraseOrder, if_neg h1] at hy
      rcases List.mem_cons.mp hy with h3 | h3
      · subst h3; exact ⟨(q, f), List.mem_cons_self _ _, rfl⟩
      · obtain ⟨z, hz, hzeq⟩ := ih y h3
        exact ⟨z, List.mem_cons_of_mem _ hz, hzeq⟩

/-- `levelsEraseOrder` preserves any key-based pairwise ordering. -/
theorem levelsEraseOrder_pairwise (p : Int) (id : Nat) (l : List (Int × List Order))
    (R : Int → Int → Prop) (h : l.Pairwise fun x y => R x.1 y.1) :
    (levelsEraseOrder p id l).Pairwise fun x y => R x.1 y.1 := by
  induction l with
  | nil => simpa [levelsEraseOrder] using h
  | cons hd tl ih =>
    obtain ⟨q, f⟩ := hd
    rcases List.pairwise_cons.mp h with ⟨hhead, htl⟩
    by_cases h1 : p = q
    · simp only [levelsEraseOrder, if_pos h1]
      by_cases h2 : (fifoErase id f).isEmpty = true
      · simp only [h2, if_true]
        exact htl
      · simp only [h2, Bool.false_eq_true, if_false]
        exact List.pairwise_cons.mpr ⟨hhead, htl⟩
    · simp only [levelsEraseOrder, if_neg h1]
      refine List.pairwise_cons.mpr ⟨?_, ih htl⟩
      intro y hy
      obtain ⟨z, hz, hzeq⟩ := levelsEraseOrder_keys p id tl y hy
      rw [← hzeq]
      exact hhead z hz

/-- `cancelOrderInternal` preserves sortedness of the side books. -/
theorem cancelOrderInternal_sorted (id : Nat) (b : Book) (hs : sortedBook b) :
    sortedBook (cancelOrderInternal id b) := by
  cases h1 : b.orders.contains id with
  | false => rw [cancelOrderInternal_eq_not_contains id b h1]; exact hs
  | true =>
    cases h2 : b.lookupOrder id with
    | none => rw [cancelOrderInternal_eq_none id b h1 h2]; exact hs
    | some ord =>
      cases h3 : ord.side with
      | Buy =>
        rw [cancelOrderInternal_eq_buy id b ord h1 h2 h3]
        exact ⟨levelsEraseOrder_pairwise ord.price id b.bids (fun a c => c < a) hs.1, hs.2⟩
      | Sell =>
        rw [cancelOrderInternal_eq_sell id b ord h1 h2 h3]
        exact ⟨hs.1, levelsEraseOrder_pairwise ord.price id b.asks (fun a c => a < c) hs.2⟩

/-- When the id is indexed, `cancelOrderInternal` erases it from the index. -/
theorem cancelOrderInternal_orders (id : Nat) (b : Book)
    (h1 : b.orders.contains id = true) :
    (cancelOrderInternal id b).orders = b.orders.erase id := by
  cases h2 : b.lookupOrder id with
  | none => rw [cancelOrderInternal_eq_none id b h1 h2]
  | some ord =>
    cases h3 : ord.side with
    | Buy => rw [cancelOrderInternal_eq_buy id b ord h1 h2 h3]
    | Sell => rw [cancelOrderInternal_eq_sell id b ord h1 h2 h3]

/-- Erasing an id from a duplicate-free index removes it completely. -/
theorem erase_contains_false (l : List Nat) (id : Nat) (h : l.Nodup) :
    (l.erase id).contains id = false := by
  cases hc : (l.erase id).contains id with
  | false => rfl
  | true =>
    exfalso
    have hmem : id ∈ l.erase id := by
      have := List.mem_of_elem_eq_true hc
      exact this
    exact (List.Nodup.not_mem_erase h) hmem

/-- The side book selected by a side. -/
def sideLevels (b : Book) (s : Side) : List (Int × List Order) :=
  match s with
  | Side.Buy => b.bids
  | Side.Sell => b.asks

end OB

namespace OB

/-- C8: `modify_order` behaves as cancel-then-replace.  An absent id is a
no-op returning empty trades.  Otherwise the call equals cancelling the
resting order and re-admitting the request's side/price/quantity with the
original order's type; and whenever the replacement's admission produces no
trades and the replacement rests, it sits at the tail of the queue at its
new price (it has lost time priority). -/
theorem C8_modify_cancel_replace (req : OrderModify) (b : Book) (hs : sortedBook b)
    (hne : noEmptyLevels b) (hnd : b.orders.Nodup) :
    (b.orders.contains req.orderId = false → modifyOrder req b = (b, [])) ∧
    (∀ ex : Order, b.orders.contains req.orderId = true →
      b.lookupOrder req.orderId = some ex →
      modifyOrder req b =
        addOrder (mkOrder ex.orderType req.orderId req.side req.price req.quantity)
          (cancelOrder req.orderId b) ∧
      ((modifyOrder req b).2 = [] →
        ((modifyOrder req b).1).orders.contains req.orderId = true →
        levelsFind req.price (sideLevels (modifyOrder req b).1 req.side) =
          some ((levelsFind req.price (sideLevels (cancelOrder req.orderId b) req.side)).getD []
            ++ [mkOrder ex.orderType req.orderId req.side req.price req.quantity]))) := by
  constructor
  · intro h
    exact modifyOrder_eq_not_contains req b h
  · intro ex h1 h2
    obtain ⟨rid, rside, rprice, rqty⟩ := req
    have hdecomp := modifyOrder_eq_some ⟨rid, rside, rprice, rqty⟩ b ex h1 h2
    refine ⟨hdecomp, ?_⟩
    intro h5 h6
    have hcbord : (cancelOrder rid b).orders = b.orders.erase rid :=
      cancelOrderInternal_orders rid b h1
    have hcontf : (cancelOrder rid b).orders.contains rid = false := by
      rw [hcbord]
      exact erase_contains_false _ _ hnd
    have hsortedcb : sortedBook (cancelOrder rid b) :=
      cancelOrderInternal_sorted rid b hs
    have hnecb : noEmptyLevels (cancelOrder rid b) :=
      cancelOrderInternal_noEmpty rid b hne
    rw [hdecomp] at h5 h6 ⊢
    by_cases gFak : (mkOrder ex.orderType rid rside rprice
        rqty).orderType = OrderType.FillAndKill ∧
        (!canMatch (cancelOrder rid b)
          (mkOrder ex.orderType rid rside rprice rqty).side
          (mkOrder ex.orderType rid rside rprice rqty).price) = true
    · rw [addOrder_eq_fak_reject _ _ hcontf gFak] at h6
      exact absurd h6 (by rw [hcontf]; simp)
    · by_cases gFok : (mkOrder ex.orderType rid rside rprice
          rqty).orderType = OrderType.FillOrKill ∧
          (!canFullyFill (cancelOrder rid b)
            (mkOrder ex.orderType rid rside rprice rqty).side
            (mkOrder ex.orderType rid rside rprice rqty).price
            (mkOrder ex.orderType rid rside rprice
              rqty).initialQuantity) = true
      · rw [addOrder_eq_fok_reject _ _ hcontf gFak gFok] at h6
        exact absurd h6 (by rw [hcontf]; simp)
      · cases rside with
        | Buy =>
          rw [addOrder_eq_insert_buy _ _ rfl hcontf gFak gFok] at h5 ⊢
          have hneB3 : noEmptyLevels ⟨bidsAdd
              (mkOrder ex.orderType rid Side.Buy rprice rqty).price
              (mkOrder ex.orderType rid Side.Buy rprice rqty)
              (cancelOrder rid b).bids,
              (cancelOrder rid b).asks,
              (mkOrder ex.orderType rid Side.Buy rprice rqty).orderId ::
                (cancelOrder rid b).orders,
              updateLevelData
                (mkOrder ex.orderType rid Side.Buy rprice rqty).price
                (mkOrder ex.orderType rid Side.Buy rprice
                  rqty).initialQuantity
                LDAction.Add (cancelOrder rid b).data⟩ :=
            ⟨bidsAdd_noEmpty _ _ _ hnecb.1, hnecb.2⟩
          rw [matchOrders_no_trades _ hneB3 h5]
          simp only [sideLevels]
          exact bidsAdd_find rprice
            (mkOrder ex.orderType rid Side.Buy rprice rqty)
            (cancelOrder rid b).bids hsortedcb.1
        | Sell =>
          rw [addOrder_eq_insert_sell _ _ rfl hcontf gFak gFok] at h5 ⊢
          have hneB3 : noEmptyLevels ⟨(cancelOrder rid b).bids,
              asksAdd
                (mkOrder ex.orderType rid Side.Sell rprice rqty).price
                (mkOrder ex.orderType rid Side.Sell rprice rqty)
                (cancelOrder rid b).asks,
              (mkOrder ex.orderType rid Side.Sell rprice rqty).orderId ::
                (cancelOrder rid b).orders,
              updateLevelData
                (mkOrder ex.orderType rid Side.Sell rprice rqty).price
                (mkOrder ex.orderType rid Side.Sell rprice
                  rqty).initialQuantity
                LDAction.Add (cancelOrder rid b).data⟩ :=
            ⟨hnecb.1, asksAdd_noEmpty _ _ _ hnecb.2⟩
          rw [matchOrders_no_trades _ hneB3 h5]
          simp only [sideLevels]
          exact asksAdd_find rprice
            (mkOrder ex.orderType rid Side.Sell rprice rqty)
            (cancelOrder rid b).asks hsortedcb.2

/-- Witness for C8 at a concrete input: modify the resting order 9 from
`Sell 100x5` to `Sell 101x7`. -/
theorem C8_modify_cancel_replace_witness :
    sortedBook ⟨[], [(100, [mkOrder OrderType.GoodTillCancel 9 Side.Sell 100 5])], [9],
      [(100, ⟨5, 1⟩)]⟩ ∧
    noEmptyLevels ⟨[], [(100, [mkOrder OrderType.GoodTillCancel 9 Side.Sell 100 5])], [9],
      [(100, ⟨5, 1⟩)]⟩ ∧
    (modifyOrder ⟨9, Side.Sell, 101, 7⟩
        ⟨[], [(100, [mkOrder OrderType.GoodTillCancel 9 Side.Sell 100 5])], [9],
          [(100, ⟨5, 1⟩)]⟩ =
      addOrder (mkOrder OrderType.GoodTillCancel 9 Side.Sell 101 7)
        (cancelOrder 9 ⟨[], [(100, [mkOrder OrderType.GoodTillCancel 9 Side.Sell 100 5])], [9],
          [(100, ⟨5, 1⟩)]⟩)) ∧
    levelsFind (101 : Int) (sideLevels (modifyOrder ⟨9, Side.Sell, 101, 7⟩
        ⟨[], [(100, [mkOrder OrderType.GoodTillCancel 9 Side.Sell 100 5])], [9],
          [(100, ⟨5, 1⟩)]⟩).1 Side.Sell) =
      some ((levelsFind (101 : Int) (sideLevels (cancelOrder 9
          ⟨[], [(100, [mkOrder OrderType.GoodTillCancel 9 Side.Sell 100 5])], [9],
            [(100, ⟨5, 1⟩)]⟩) Side.Sell)).getD []
        ++ [mkOrder OrderType.GoodTillCancel 9 Side.Sell 101 7]) := by
  have hs : sortedBook ⟨[], [(100, [mkOrder OrderType.GoodTillCancel 9 Side.Sell 100 5])], [9],
      [(100, ⟨5, 1⟩)]⟩ := by
    constructor
    · exact List.Pairwise.nil
    · exact List.pairwise_singleton _ _
  have hne : noEmptyLevels ⟨[], [(100, [mkOrder OrderType.GoodTillCancel 9 Side.Sell 100 5])],
      [9], [(100, ⟨5, 1⟩)]⟩ := by
    unfold noEmptyLevels
    decide
  have hnd : ([9] : List Nat).Nodup := by decide
  have h := C8_modify_cancel_replace ⟨9, Side.Sell, 101, 7⟩
    ⟨[], [(100, [mkOrder OrderType.GoodTillCancel 9 Side.Sell 100 5])], [9],
      [(100, ⟨5, 1⟩)]⟩ hs hne hnd
  have hmain := h.2 (mkOrder OrderType.GoodTillCancel 9 Side.Sell 100 5) (by decide) (by decide)
  exact ⟨hs, hne, hmain.1, hmain.2 (by decide) (by decide)⟩

end OB

namespace OB

/-- The snapshot accumulator stays below 2^32. -/
theorem foldl_uadd_lt (f : List Order) :
    ∀ acc : Nat, acc < U32 →
      f.foldl (fun a o => uadd a o.remainingQuantity) acc < U32 := by
  induction f with
  | nil => intro acc h; exact h
  | cons o rest ih =>
    intro acc h
    simp only [List.foldl_cons]
    apply ih
    unfold uadd U32
    omega

/-- The per-level snapshot quantity is a `uint32` value. -/
theorem fifoQty_lt (f : List Order) : fifoQty f < U32 := by
  unfold fifoQty
  exact foldl_uadd_lt f 0 (by unfold U32; omega)

/-- Appending a zero-remainder order does not change the level's snapshot
quantity. -/
theorem fifoQty_append_zero (f : List Order) (o : Order) (ho : o.remainingQuantity = 0) :
    fifoQty (f ++ [o]) = fifoQty f := by
  unfold fifoQty
  rw [List.foldl_append]
  simp only [List.foldl_cons, List.foldl_nil, ho]
  unfold uadd
  rw [Nat.add_zero]
  exact Nat.mod_eq_of_lt (fifoQty_lt f)

/-- `bidsAdd` keeps the best bid price below any bound dominating both the
new price and the old best. -/
theorem bidsAdd_head_lt (p c : Int) (o : Order) (l : List (Int × List Order))
    (hp : p < c) (hl : match l with | [] => True | (q, _) :: _ => q < c) :
    match bidsAdd p o l with | [] => True | (q, _) :: _ => q < c := by
  cases l with
  | nil => simpa [bidsAdd] using hp
  | cons hd tl =>
    obtain ⟨q, f⟩ := hd
    simp only [] at hl
    by_cases h1 : q < p
    · simpa [bidsAdd, h1] using hp
    · by_cases h2 : p = q
      · simpa [bidsAdd, h1, h2] using h2 ▸ hl
      · simpa [bidsAdd, h1, h2] using hl

/-- `asksAdd` keeps the best ask price above any bound dominated by both the
new price and the old best. -/
theorem asksAdd_head_gt (p c : Int) (o : Order) (l : List (Int × List Order))
    (hp : c < p) (hl : match l with | [] => True | (q, _) :: _ => c < q) :
    match asksAdd p o l with | [] => True | (q, _) :: _ => c < q := by
  cases l with
  | nil => simpa [asksAdd] using hp
  | cons hd tl =>
    obtain ⟨q, f⟩ := hd
    simp only [] at hl
    by_cases h1 : p < q
    · simpa [asksAdd, h1] using hp
    · by_cases h2 : p = q
      · simpa [asksAdd, h1, h2] using h2 ▸ hl
      · simpa [asksAdd, h1, h2] using hl

/-- One crossing step driven by a zero-remainder head on the bid side: a
zero-quantity trade is emitted, the zero order is popped as filled and
deleted from the index, and the ask queue is untouched. -/
theorem innerLoopF_zero_head_bid (bp ap : Int) (fuel : Nat) (o ask : Order)
    (arest : List Order) (orders : List Nat) (data : List (Int × LevelData))
    (ho : o.remainingQuantity = 0) (hask : ask.remainingQuantity ≠ 0) :
    innerLoopF (Nat.succ fuel) bp ap ⟨[o], ask :: arest, orders, data, []⟩ =
      ⟨[], ask :: arest, orders.erase o.orderId,
        updateLevelData ask.price 0 LDAction.Match
          (updateLevelData o.price 0 LDAction.Remove (dataErase bp data)),
        [⟨⟨o.orderId, o.price, 0⟩, ⟨ask.orderId, ask.price, 0⟩⟩]⟩ := by
  rw [innerLoopF_cons]
  simp only []
  have hq : min o.remainingQuantity ask.remainingQuantity = 0 := by
    rw [ho]
    exact Nat.zero_min _
  rw [hq]
  have hfo : o.fill 0 = o := rfl
  have hfa : ask.fill 0 = ask := rfl
  rw [hfo, hfa]
  have hbf : o.isFilled = true := by simp [Order.isFilled, ho]
  have haf : ask.isFilled = false := by
    simp only [Order.isFilled, beq_eq_false_iff_ne, ne_eq]
    exact hask
  simp only [hbf, haf, if_true, Bool.false_eq_true, if_false, List.isEmpty_nil,
    List.isEmpty_cons, List.nil_append]
  rw [innerLoopF_bfifo_nil _ _ _ _ rfl]

/-- One crossing step driven by a zero-remainder head on the ask side. -/
theorem innerLoopF_zero_head_ask (bp ap : Int) (fuel : Nat) (o bid : Order)
    (brest : List Order) (orders : List Nat) (data : List (Int × LevelData))
    (ho : o.remainingQuantity = 0) (hbid : bid.remainingQuantity ≠ 0) :
    innerLoopF (Nat.succ fuel) bp ap ⟨bid :: brest, [o], orders, data, []⟩ =
      ⟨bid :: brest, [], orders.erase o.orderId,
        updateLevelData o.price 0 LDAction.Remove
          (updateLevelData bid.price 0 LDAction.Match (dataErase ap data)),
        [⟨⟨bid.orderId, bid.price, 0⟩, ⟨o.orderId, o.price, 0⟩⟩]⟩ := by
  rw [innerLoopF_cons]
  simp only []
  have hq : min bid.remainingQuantity o.remainingQuantity = 0 := by
    rw [ho]
    exact Nat.min_zero _
  rw [hq]
  have hfo : o.fill 0 = o := rfl
  have hfb : bid.fill 0 = bid := rfl
  rw [hfo, hfb]
  have haf : o.isFilled = true := by simp [Order.isFilled, ho]
  have hbf : bid.isFilled = false := by
    simp only [Order.isFilled, beq_eq_false_iff_ne, ne_eq]
    exact hbid
  simp only [hbf, haf, if_true, Bool.false_eq_true, if_false, List.isEmpty_nil,
    List.isEmpty_cons, List.nil_append]
  rw [innerLoopF_afifo_nil _ _ _ _ rfl]

end OB


namespace OB

/-- C10: `add_order` performs no validation of `initial_quantity`.  A
zero-quantity order of an always-admitted type (not FillAndKill, not
FillOrKill) is inserted: if it does not cross, it rests (counted by `size`,
contributing zero to its level's snapshot quantity); if it crosses the
opposing best, the crossing loop emits exactly one trade of quantity zero
on both legs and the order is immediately removed as filled, leaving the
side books and order index as they were. -/
theorem C10_zero_quantity_order (t : OrderType) (id : Nat) (s : Side) (p : Int) (b : Book)
    (hT1 : t ≠ OrderType.FillAndKill) (hT2 : t ≠ OrderType.FillOrKill)
    (hs : sortedBook b) (hne : noEmptyLevels b) (hnc : notCrossed b)
    (hnf : noRestingFaK b) (hpos : posRemaining b)
    (hid : b.orders.contains id = false) :
    (canMatch b s p = false →
      (addOrder (mkOrder t id s p 0) b).2 = [] ∧
      (addOrder (mkOrder t id s p 0) b).1.size = b.size + 1 ∧
      (addOrder (mkOrder t id s p 0) b).1.orders.contains id = true ∧
      levelQty (addOrder (mkOrder t id s p 0) b).1 s p = levelQty b s p) ∧
    (canMatch b s p = true →
      ∃ tr, (addOrder (mkOrder t id s p 0) b).2 = [tr] ∧
        tr.bidTrade.quantity = 0 ∧ tr.askTrade.quantity = 0 ∧
        (addOrder (mkOrder t id s p 0) b).1.bids = b.bids ∧
        (addOrder (mkOrder t id s p 0) b).1.asks = b.asks ∧
        (addOrder (mkOrder t id s p 0) b).1.orders = b.orders) := by
  constructor
  · -- no crossing: the order rests at the tail of its level
    intro hcm
    cases s with
    | Buy =>
      have hg2 : ¬((mkOrder t id Side.Buy p 0).orderType = OrderType.FillAndKill ∧
          (!canMatch b (mkOrder t id Side.Buy p 0).side
            (mkOrder t id Side.Buy p 0).price) = true) := fun h => hT1 h.1
      have hg3 : ¬((mkOrder t id Side.Buy p 0).orderType = OrderType.FillOrKill ∧
          (!canFullyFill b (mkOrder t id Side.Buy p 0).side
            (mkOrder t id Side.Buy p 0).price
            (mkOrder t id Side.Buy p 0).initialQuantity) = true) := fun h => hT2 h.1
      rw [addOrder_eq_insert_buy (mkOrder t id Side.Buy p 0) b rfl hid hg2 hg3]
      simp only [show (mkOrder t id Side.Buy p 0).price = p from rfl,
        show (mkOrder t id Side.Buy p 0).initialQuantity = 0 from rfl,
        show (mkOrder t id Side.Buy p 0).orderId = id from rfl]
      have hident : matchOrders ⟨bidsAdd p (mkOrder t id Side.Buy p 0) b.bids, b.asks,
          id :: b.orders, updateLevelData p 0 LDAction.Add b.data⟩ =
          (⟨bidsAdd p (mkOrder t id Side.Buy p 0) b.bids, b.asks, id :: b.orders,
            updateLevelData p 0 LDAction.Add b.data⟩, []) := by
        unfold matchOrders
        cases ha : b.asks with
        | nil => exact matchLoop_asks_nil _ _ _ (by simp [ha])
        | cons ahd atl =>
          obtain ⟨aq, af⟩ := ahd
          apply matchLoop_of_notCrossed
          unfold canMatch at hcm
          rw [ha] at hcm
          simp only [decide_eq_false_iff_not] at hcm
          have hpq : p < aq := by omega
          have hl : match b.bids with | [] => True | (q, _) :: _ => q < aq := by
            cases hb : b.bids with
            | nil => trivial
            | cons bhd btl =>
              obtain ⟨bq, bf⟩ := bhd
              unfold notCrossed at hnc
              rw [hb, ha] at hnc
              simpa using hnc
          have hhead := bidsAdd_head_lt p aq (mkOrder t id Side.Buy p 0) b.bids hpq hl
          unfold notCrossed
          cases hba : bidsAdd p (mkOrder t id Side.Buy p 0) b.bids with
          | nil => trivial
          | cons h2d t2l =>
            obtain ⟨q2, f2⟩ := h2d
            rw [hba] at hhead
            simpa using hhead
      rw [hident]
      refine ⟨rfl, by simp [Book.size], by simp [List.contains_cons], ?_⟩
      unfold levelQty
      simp only []
      rw [bidsAdd_find p (mkOrder t id Side.Buy p 0) b.bids hs.1]
      simp only [Option.getD_some]
      exact fifoQty_append_zero _ _ rfl
    | Sell =>
      have hg2 : ¬((mkOrder t id Side.Sell p 0).orderType = OrderType.FillAndKill ∧
          (!canMatch b (mkOrder t id Side.Sell p 0).side
            (mkOrder t id Side.Sell p 0).price) = true) := fun h => hT1 h.1
      have hg3 : ¬((mkOrder t id Side.Sell p 0).orderType = OrderType.FillOrKill ∧
          (!canFullyFill b (mkOrder t id Side.Sell p 0).side
            (mkOrder t id Side.Sell p 0).price
            (mkOrder t id Side.Sell p 0).initialQuantity) = true) := fun h => hT2 h.1
      rw [addOrder_eq_insert_sell (mkOrder t id Side.Sell p 0) b rfl hid hg2 hg3]
      simp only [show (mkOrder t id Side.Sell p 0).price = p from rfl,
        show (mkOrder t id Side.Sell p 0).initialQuantity = 0 from rfl,
        show (mkOrder t id Side.Sell p 0).orderId = id from rfl]
      have hident : matchOrders ⟨b.bids, asksAdd p (mkOrder t id Side.Sell p 0) b.asks,
          id :: b.orders, updateLevelData p 0 LDAction.Add b.data⟩ =
          (⟨b.bids, asksAdd p (mkOrder t id Side.Sell p 0) b.asks, id :: b.orders,
            updateLevelData p 0 LDAction.Add b.data⟩, []) := by
        unfold matchOrders
        cases hb : b.bids with
        | nil => exact matchLoop_bids_nil _ _ _ (by simp [hb])
        | cons bhd btl =>
          obtain ⟨bq, bf⟩ := bhd
          apply matchLoop_of_notCrossed
          unfold canMatch at hcm
          rw [hb] at hcm
          simp only [decide_eq_false_iff_not] at hcm
          have hpq : bq < p := by omega
          have hl : match b.asks with | [] => True | (q, _) :: _ => bq < q := by
            cases ha : b.asks with
            | nil => trivial
            | cons ahd atl =>
              obtain ⟨aq, af⟩ := ahd
              unfold notCrossed at hnc
              rw [hb, ha] at hnc
              simpa using hnc
          have hhead := asksAdd_head_gt p bq (mkOrder t id Side.Sell p 0) b.asks hpq hl
          unfold notCrossed
          cases haa : asksAdd p (mkOrder t id Side.Sell p 0) b.asks with
          | nil => trivial
          | cons h2d t2l =>
            obtain ⟨q2, f2⟩ := h2d
            rw [haa] at hhead
            simpa using hhead
      rw [hident]
      refine ⟨rfl, by simp [Book.size], by simp [List.contains_cons], ?_⟩
      unfold levelQty
      simp only []
      rw [asksAdd_find p (mkOrder t id Side.Sell p 0) b.asks hs.2]
      simp only [Option.getD_some]
      exact fifoQty_append_zero _ _ rfl
  · -- crossing: one zero-quantity trade, the zero order is consumed
    intro hcm
    cases s with
    | Buy =>
      have hg2 : ¬((mkOrder t id Side.Buy p 0).orderType = OrderType.FillAndKill ∧
          (!canMatch b (mkOrder t id Side.Buy p 0).side
            (mkOrder t id Side.Buy p 0).price) = true) := fun h => hT1 h.1
      have hg3 : ¬((mkOrder t id Side.Buy p 0).orderType = OrderType.FillOrKill ∧
          (!canFullyFill b (mkOrder t id Side.Buy p 0).side
            (mkOrder t id Side.Buy p 0).price
            (mkOrder t id Side.Buy p 0).initialQuantity) = true) := fun h => hT2 h.1
      obtain ⟨ap0, af0, arest, hasks, hap0⟩ :
          ∃ ap0 af0 arest, b.asks = (ap0, af0) :: arest ∧ ap0 ≤ p := by
        unfold canMatch at hcm
        cases ha : b.asks with
        | nil => rw [ha] at hcm; simp at hcm
        | cons hd tl =>
          obtain ⟨q, f⟩ := hd
          rw [ha] at hcm
          exact ⟨q, f, tl, rfl, by simpa using hcm⟩
      cases haf0 : af0 with
      | nil =>
        exact absurd (hne.2 (ap0, af0) (by rw [hasks]; exact List.mem_cons_self _ _))
          (by simp [haf0])
      | cons ask0 afrest =>
        subst haf0
        have hbidhead : match b.bids with | [] => True | (q, _) :: _ => q < p := by
          cases hb : b.bids with
          | nil => trivial
          | cons bhd btl =>
            obtain ⟨bq, bf⟩ := bhd
            unfold notCrossed at hnc
            rw [hb, hasks] at hnc
            simp only [] at hnc
            simp only []
            omega
        rw [addOrder_eq_insert_buy (mkOrder t id Side.Buy p 0) b rfl hid hg2 hg3]
        simp only [show (mkOrder t id Side.Buy p 0).price = p from rfl,
          show (mkOrder t id Side.Buy p 0).initialQuantity = 0 from rfl,
          show (mkOrder t id Side.Buy p 0).orderId = id from rfl]
        rw [bidsAdd_prepend p (mkOrder t id Side.Buy p 0) b.bids hbidhead, hasks]
        unfold matchOrders
        have hstep : matchLoop
            (totalOrders ⟨(p, [mkOrder t id Side.Buy p 0]) :: b.bids,
              (ap0, ask0 :: afrest) :: arest, id :: b.orders,
              updateLevelData p 0 LDAction.Add b.data⟩ + 1)
            ⟨(p, [mkOrder t id Side.Buy p 0]) :: b.bids, (ap0, ask0 :: afrest) :: arest,
              id :: b.orders, updateLevelData p 0 LDAction.Add b.data⟩ [] =
            (let s := innerLoop p ap0 ⟨[mkOrder t id Side.Buy p 0], ask0 :: afrest,
                id :: b.orders, updateLevelData p 0 LDAction.Add b.data, []⟩
             let bids1 := if s.bfifo.isEmpty then b.bids else (p, s.bfifo) :: b.bids
             let asks1 := if s.afifo.isEmpty then arest else (ap0, s.afifo) :: arest
             matchLoop (totalOrders ⟨(p, [mkOrder t id Side.Buy p 0]) :: b.bids,
                 (ap0, ask0 :: afrest) :: arest, id :: b.orders,
                 updateLevelData p 0 LDAction.Add b.data⟩)
               (fakCancelAskTop (fakCancelBidTop ⟨bids1, asks1, s.orders, s.data⟩))
               ([] ++ s.trades)) :=
          matchLoop_step _ p ap0 [mkOrder t id Side.Buy p 0] (ask0 :: afrest) b.bids arest
            _ _ [] (not_lt.mpr hap0)
        rw [hstep]
        simp only []
        have hask0 : ask0.remainingQuantity ≠ 0 := by
          have := hpos ask0 (mem_allOrders_asks b ask0 (by
            rw [hasks]; exact mem_join_head _ _ _ _ (List.mem_cons_self _ _)))
          omega
        have hinner : innerLoop p ap0 ⟨[mkOrder t id Side.Buy p 0], ask0 :: afrest,
            id :: b.orders, updateLevelData p 0 LDAction.Add b.data, []⟩ =
            ⟨[], ask0 :: afrest, (id :: b.orders).erase id,
              updateLevelData ask0.price 0 LDAction.Match
                (updateLevelData p 0 LDAction.Remove
                  (dataErase p (updateLevelData p 0 LDAction.Add b.data))),
              [⟨⟨id, p, 0⟩, ⟨ask0.orderId, ask0.price, 0⟩⟩]⟩ :=
          innerLoopF_zero_head_bid p ap0 (1 + afrest.length) (mkOrder t id Side.Buy p 0)
            ask0 afrest (id :: b.orders) (updateLevelData p 0 LDAction.Add b.data) rfl hask0
        rw [hinner]
        simp only [List.isEmpty_nil, List.isEmpty_cons, if_true, Bool.false_eq_true, if_false,
          List.nil_append]
        rw [List.erase_cons_head]
        rw [fakCancelBidTop_noop ⟨b.bids, (ap0, ask0 :: afrest) :: arest, b.orders,
          updateLevelData ask0.price 0 LDAction.Match
            (updateLevelData p 0 LDAction.Remove
              (dataErase p (updateLevelData p 0 LDAction.Add b.data)))⟩
          (fun x hx => hnf x (mem_allOrders_bids b x hx))]
        rw [fakCancelAskTop_noop ⟨b.bids, (ap0, ask0 :: afrest) :: arest, b.orders,
          updateLevelData ask0.price 0 LDAction.Match
            (updateLevelData p 0 LDAction.Remove
              (dataErase p (updateLevelData p 0 LDAction.Add b.data)))⟩
          (fun x hx => hnf x (mem_allOrders_asks b x (by
            rw [hasks]; exact hx)))]
        rw [matchLoop_of_notCrossed _ _ _ (show notCrossed ⟨b.bids,
          (ap0, ask0 :: afrest) :: arest, b.orders,
          updateLevelData ask0.price 0 LDAction.Match
            (updateLevelData p 0 LDAction.Remove
              (dataErase p (updateLevelData p 0 LDAction.Add b.data)))⟩ from by
          unfold notCrossed at hnc ⊢
          rw [hasks] at hnc
          exact hnc)]
        exact ⟨⟨⟨id, p, 0⟩, ⟨ask0.orderId, ask0.price, 0⟩⟩, rfl, rfl, rfl, rfl, rfl, rfl⟩
    | Sell =>
      have hg2 : ¬((mkOrder t id Side.Sell p 0).orderType = OrderType.FillAndKill ∧
          (!canMatch b (mkOrder t id Side.Sell p 0).side
            (mkOrder t id Side.Sell p 0).price) = true) := fun h => hT1 h.1
      have hg3 : ¬((mkOrder t id Side.Sell p 0).orderType = OrderType.FillOrKill ∧
          (!canFullyFill b (mkOrder t id Side.Sell p 0).side
            (mkOrder t id Side.Sell p 0).price
            (mkOrder t id Side.Sell p 0).initialQuantity) = true) := fun h => hT2 h.1
      obtain ⟨bp0, bf0, brest, hbids, hbp0⟩ :
          ∃ bp0 bf0 brest, b.bids = (bp0, bf0) :: brest ∧ p ≤ bp0 := by
        unfold canMatch at hcm
        cases hb : b.bids with
        | nil => rw [hb] at hcm; simp at hcm
        | cons hd tl =>
          obtain ⟨q, f⟩ := hd
          rw [hb] at hcm
          exact ⟨q, f, tl, rfl, by simpa using hcm⟩
      cases hbf0 : bf0 with
      | nil =>
        exact absurd (hne.1 (bp0, bf0) (by rw [hbids]; exact List.mem_cons_self _ _))
          (by simp [hbf0])
      | cons bid0 bfrest =>
        subst hbf0
        have haskhead : match b.asks with | [] => True | (q, _) :: _ => p < q := by
          cases ha : b.asks with
          | nil => trivial
          | cons ahd atl =>
            obtain ⟨aq, af⟩ := ahd
            unfold notCrossed at hnc
            rw [hbids, ha] at hnc
            simp only [] at hnc
            simp only []
            omega
        rw [addOrder_eq_insert_sell (mkOrder t id Side.Sell p 0) b rfl hid hg2 hg3]
        simp only [show (mkOrder t id Side.Sell p 0).price = p from rfl,
          show (mkOrder t id Side.Sell p 0).initialQuantity = 0 from rfl,
          show (mkOrder t id Side.Sell p 0).orderId = id from rfl]
        rw [asksAdd_prepend p (mkOrder t id Side.Sell p 0) b.asks haskhead, hbids]
        unfold matchOrders
        have hstep : matchLoop
            (totalOrders ⟨(bp0, bid0 :: bfrest) :: brest,
              (p, [mkOrder t id Side.Sell p 0]) :: b.asks, id :: b.orders,
              updateLevelData p 0 LDAction.Add b.data⟩ + 1)
            ⟨(bp0, bid0 :: bfrest) :: brest, (p, [mkOrder t id Side.Sell p 0]) :: b.asks,
              id :: b.orders, updateLevelData p 0 LDAction.Add b.data⟩ [] =
            (let s := innerLoop bp0 p ⟨bid0 :: bfrest, [mkOrder t id Side.Sell p 0],
                id :: b.orders, updateLevelData p 0 LDAction.Add b.data, []⟩
             let bids1 := if s.bfifo.isEmpty then brest else (bp0, s.bfifo) :: brest
             let asks1 := if s.afifo.isEmpty then b.asks else (p, s.afifo) :: b.asks
             matchLoop (totalOrders ⟨(bp0, bid0 :: bfrest) :: brest,
                 (p, [mkOrder t id Side.Sell p 0]) :: b.asks, id :: b.orders,
                 updateLevelData p 0 LDAction.Add b.data⟩)
               (fakCancelAskTop (fakCancelBidTop ⟨bids1, asks1, s.orders, s.data⟩))
               ([] ++ s.trades)) :=
          matchLoop_step _ bp0 p (bid0 :: bfrest) [mkOrder t id Side.Sell p 0] brest b.asks
            _ _ [] (not_lt.mpr hbp0)
        rw [hstep]
        simp only []
        have hbid0 : bid0.remainingQuantity ≠ 0 := by
          have := hpos bid0 (mem_allOrders_bids b bid0 (by
            rw [hbids]; exact mem_join_head _ _ _ _ (List.mem_cons_self _ _)))
          omega
        have hinner : innerLoop bp0 p ⟨bid0 :: bfrest, [mkOrder t id Side.Sell p 0],
            id :: b.orders, updateLevelData p 0 LDAction.Add b.data, []⟩ =
            ⟨bid0 :: bfrest, [], (id :: b.orders).erase id,
              updateLevelData p 0 LDAction.Remove
                (updateLevelData bid0.price 0 LDAction.Match
                  (dataErase p (updateLevelData p 0 LDAction.Add b.data))),
              [⟨⟨bid0.orderId, bid0.price, 0⟩, ⟨id, p, 0⟩⟩]⟩ :=
          innerLoopF_zero_head_ask bp0 p (bfrest.length + 1) (mkOrder t id Side.Sell p 0)
            bid0 bfrest (id :: b.orders) (updateLevelData p 0 LDAction.Add b.data) rfl hbid0
        rw [hinner]
        simp only [List.isEmpty_nil, List.isEmpty_cons, if_true, Bool.false_eq_true, if_false,
          List.nil_append]
        rw [List.erase_cons_head]
        rw [fakCancelBidTop_noop ⟨(bp0, bid0 :: bfrest) :: brest, b.asks, b.orders,
          updateLevelData p 0 LDAction.Remove
            (updateLevelData bid0.price 0 LDAction.Match
              (dataErase p (updateLevelData p 0 LDAction.Add b.data)))⟩
          (fun x hx => hnf x (mem_allOrders_bids b x (by
            rw [hbids]; exact hx)))]
        rw [fakCancelAskTop_noop ⟨(bp0, bid0 :: bfrest) :: brest, b.asks, b.orders,
          updateLevelData p 0 LDAction.Remove
            (updateLevelData bid0.price 0 LDAction.Match
              (dataErase p (updateLevelData p 0 LDAction.Add b.data)))⟩
          (fun x hx => hnf x (mem_allOrders_asks b x hx))]
        rw [matchLoop_of_notCrossed _ _ _ (show notCrossed ⟨(bp0, bid0 :: bfrest) :: brest,
          b.asks, b.orders,
          updateLevelData p 0 LDAction.Remove
            (updateLevelData bid0.price 0 LDAction.Match
              (dataErase p (updateLevelData p 0 LDAction.Add b.data)))⟩ from by
          unfold notCrossed at hnc ⊢
          rw [hbids] at hnc
          exact hnc)]
        exact ⟨⟨⟨bid0.orderId, bid0.price, 0⟩, ⟨id, p, 0⟩⟩, rfl, rfl, rfl, rfl, rfl, rfl⟩

end OB

namespace OB

/-- Witness for C10 at a concrete book: one resting GoodTillCancel ask 100x5;
adding a GoodTillCancel buy at 100 with quantity 0 crosses, emits exactly one
trade with both legs of quantity 0, and leaves the side books and order index
unchanged. -/
theorem C10_zero_quantity_order_witness :
    canMatch ⟨[], [((100 : Int), [mkOrder OrderType.GoodTillCancel 9 Side.Sell 100 5])],
      [9], [((100 : Int), ⟨5, 1⟩)]⟩ Side.Buy 100 = true ∧
    (∃ tr, (addOrder (mkOrder OrderType.GoodTillCancel 1 Side.Buy 100 0)
        ⟨[], [((100 : Int), [mkOrder OrderType.GoodTillCancel 9 Side.Sell 100 5])],
          [9], [((100 : Int), ⟨5, 1⟩)]⟩).2 = [tr] ∧
      tr.bidTrade.quantity = 0 ∧ tr.askTrade.quantity = 0 ∧
      (addOrder (mkOrder OrderType.GoodTillCancel 1 Side.Buy 100 0)
        ⟨[], [((100 : Int), [mkOrder OrderType.GoodTillCancel 9 Side.Sell 100 5])],
          [9], [((100 : Int), ⟨5, 1⟩)]⟩).1.bids = [] ∧
      (addOrder (mkOrder OrderType.GoodTillCancel 1 Side.Buy 100 0)
        ⟨[], [((100 : Int), [mkOrder OrderType.GoodTillCancel 9 Side.Sell 100 5])],
          [9], [((100 : Int), ⟨5, 1⟩)]⟩).1.asks =
        [((100 : Int), [mkOrder OrderType.GoodTillCancel 9 Side.Sell 100 5])] ∧
      (addOrder (mkOrder OrderType.GoodTillCancel 1 Side.Buy 100 0)
        ⟨[], [((100 : Int), [mkOrder OrderType.GoodTillCancel 9 Side.Sell 100 5])],
          [9], [((100 : Int), ⟨5, 1⟩)]⟩).1.orders = [9]) := by
  have hs : sortedBook ⟨[], [((100 : Int),
      [mkOrder OrderType.GoodTillCancel 9 Side.Sell 100 5])], [9],
      [((100 : Int), ⟨5, 1⟩)]⟩ := by
    unfold sortedBook
    refine ⟨List.Pairwise.nil, ?_⟩
    simp
  have hne : noEmptyLevels ⟨[], [((100 : Int),
      [mkOrder OrderType.GoodTillCancel 9 Side.Sell 100 5])], [9],
      [((100 : Int), ⟨5, 1⟩)]⟩ := by
    unfold noEmptyLevels
    decide
  have hnc : notCrossed ⟨[], [((100 : Int),
      [mkOrder OrderType.GoodTillCancel 9 Side.Sell 100 5])], [9],
      [((100 : Int), ⟨5, 1⟩)]⟩ := by
    unfold notCrossed
    trivial
  have hnf : noRestingFaK ⟨[], [((100 : Int),
      [mkOrder OrderType.GoodTillCancel 9 Side.Sell 100 5])], [9],
      [((100 : Int), ⟨5, 1⟩)]⟩ := by
    unfold noRestingFaK Book.allOrders
    decide
  have hpos : posRemaining ⟨[], [((100 : Int),
      [mkOrder OrderType.GoodTillCancel 9 Side.Sell 100 5])], [9],
      [((100 : Int), ⟨5, 1⟩)]⟩ := by
    unfold posRemaining Book.allOrders
    decide
  refine ⟨by decide, ?_⟩
  exact (C10_zero_quantity_order OrderType.GoodTillCancel 1 Side.Buy 100
    ⟨[], [((100 : Int), [mkOrder OrderType.GoodTillCancel 9 Side.Sell 100 5])],
      [9], [((100 : Int), ⟨5, 1⟩)]⟩
    (by decide) (by decide) hs hne hnc hnf hpos (by decide)).2 (by decide)

end OB
